import Mathlib

/-!
Shallow embedding of the WOOT CRDT document engine (`src/crdt/woot.go`) and of
the server session-registry owner loop (server source, `Clients.handle`) of the
collaborative text editor, together with theorems settling the frozen claims.

Go machine integers only ever hold small indices and clocks here; positions are
modelled as `Int` (Go `int`) and list lengths as `Nat` with explicit coercions.
Go's `(value, error)` returns are modelled as pairs with an `Option Err`.
-/

namespace TextEditor

/-- Decimal digits of a natural number, most significant first, with explicit
structural fuel (the fuel `n+1` always suffices).  This models Go's
`fmt.Sprint` on a non-negative `int`. -/
def decAux : Nat → Nat → List Char
  | 0, _ => []
  | fuel+1, n => if n < 10 then [Nat.digitChar n] else decAux fuel (n / 10) ++ [Nat.digitChar (n % 10)]

/-- Decimal rendering of a natural number, as Go's `fmt.Sprint(n)`. -/
def natToDec (n : Nat) : String := ⟨decAux (n + 1) n⟩

/-- A WOOT character (`crdt.Character`). -/
structure Character where
  ID : String
  Visible : Bool
  Value : String
  IDPrevious : String
  IDNext : String
deriving DecidableEq, Repr

/-- The null character Go returns as `Character{ID: "-1"}` (zero values elsewhere). -/
def nullChar : Character := ⟨"-1", false, "", "", ""⟩

/-- The start sentinel (`crdt.StartChar`). -/
def StartChar : Character := ⟨"start", false, "", "", "end"⟩

/-- The end sentinel (`crdt.EndChar`). -/
def EndChar : Character := ⟨"end", false, "", "start", ""⟩

/-- A WOOT document (`crdt.Document`). -/
structure Document where
  Characters : List Character
deriving DecidableEq, Repr

/-- `crdt.New`: a fresh document holding exactly the two sentinels. -/
def New : Document := ⟨[StartChar, EndChar]⟩

/-- The engine's error surface (`crdt.Err*`), plus a fuel marker for the
recursion of `IntegrateInsert` (the marker is proved unreachable in the
situations the claims exercise). -/
inductive Err where
  | positionOutOfBounds
  | emptyWCharacter
  | boundsNotPresent
  | fuelExhausted
deriving DecidableEq, Repr

/-- `crdt.Content`: concatenation of the values of the visible characters. -/
def Content (doc : Document) : String :=
  doc.Characters.foldl (fun v c => if c.Visible then v ++ c.Value else v) ""

/-- Worker for `IthVisible`: walks the list keeping Go's `count`. -/
def ithVisAux (position : Int) : List Character → Int → Character
  | [], _ => nullChar
  | c :: rest, count =>
    if c.Visible then
      if count = position - 1 then c else ithVisAux position rest (count + 1)
    else ithVisAux position rest count

/-- `crdt.IthVisible`: the `position`-th (1-indexed) visible character, or the
null character when there is none. -/
def IthVisible (doc : Document) (position : Int) : Character :=
  ithVisAux position doc.Characters 0

/-- Worker for `Position`: walks the list keeping the current index. -/
def posAux (charID : String) : List Character → Nat → Int
  | [], _ => -1
  | c :: rest, i => if charID = c.ID then (i : Int) + 1 else posAux charID rest (i + 1)

/-- `crdt.Document.Position`: 1-indexed position of the first character whose
identity equals `charID`, or `-1`. -/
def Position (doc : Document) (charID : String) : Int :=
  posAux charID doc.Characters 0

/-- `crdt.Document.Contains`. -/
def Contains (doc : Document) (charID : String) : Bool :=
  Position doc charID != -1

/-- Worker for `Find`. -/
def findAux (id : String) : List Character → Character
  | [] => nullChar
  | c :: rest => if c.ID = id then c else findAux id rest

/-- `crdt.Document.Find`: the first character with the given identity, or the
null character. -/
def Find (doc : Document) (id : String) : Character :=
  findAux id doc.Characters

/-- `crdt.Document.Subsequence`: the Go slice
`doc.Characters[startPosition : endPosition-1]`, with the error cases of the
source; on error Go returns `doc.Characters` alongside the error. -/
def Subsequence (doc : Document) (wcharacterStart wcharacterEnd : Character) :
    List Character × Option Err :=
  let startPosition := Position doc wcharacterStart.ID
  let endPosition := Position doc wcharacterEnd.ID
  if startPosition = -1 ∨ endPosition = -1 then
    (doc.Characters, some Err.boundsNotPresent)
  else if startPosition > endPosition then
    (doc.Characters, some Err.boundsNotPresent)
  else if startPosition = endPosition then
    ([], none)
  else
    ((doc.Characters.drop startPosition.toNat).take ((endPosition - 1).toNat - startPosition.toNat),
      none)

/-- Pointwise modification of a list element at an index (identity out of
range), used for the neighbour pointer rewrites of `LocalInsert` and the
tombstoning of `IntegrateDelete`. -/
def modifyAt (f : Character → Character) : List Character → Nat → List Character
  | [], _ => []
  | c :: rest, 0 => f c :: rest
  | c :: rest, i+1 => c :: modifyAt f rest i

/-- `crdt.Document.LocalInsert`: splice `char` at internal position `position`,
then rewrite the neighbours' `IDNext`/`IDPrevious`; on failure the document is
returned unchanged with the error. -/
def LocalInsert (doc : Document) (char : Character) (position : Int) :
    Document × Option Err :=
  if position ≤ 0 ∨ position ≥ (doc.Characters.length : Int) then
    (doc, some Err.positionOutOfBounds)
  else if char.ID = "" then
    (doc, some Err.emptyWCharacter)
  else
    let p := position.toNat
    let cs := doc.Characters.take p ++ char :: doc.Characters.drop p
    let cs := modifyAt (fun c => { c with IDNext := char.ID }) cs (p - 1)
    let cs := modifyAt (fun c => { c with IDPrevious := char.ID }) cs (p + 1)
    (⟨cs⟩, none)

/-- The scan loop of `IntegrateInsert`
(`i := 1; for i < len(sub)-1 && sub[i].ID < char.ID { i++ }`), walking the
suffix `sub.drop i`; the suffix having at least two elements is exactly Go's
`i < len(sub)-1`. -/
def scanAux (cid : String) : List Character → Nat → Nat
  | a :: b :: rest, i => if a.ID < cid then scanAux cid (b :: rest) (i + 1) else i
  | _, i => i

/-- `crdt.Document.IntegrateInsert`, with explicit fuel for its recursion (the
Go recursion reaches depth two on documents with pairwise-distinct identities;
the fuel `doc.Characters.length + 2` used by `IntegrateInsert` is then never
exhausted). -/
def integrateInsertF : Nat → Document → Character → Character → Character →
    Document × Option Err
  | 0, doc, _, _, _ => (doc, some Err.fuelExhausted)
  | fuel+1, doc, char, charPrev, charNext =>
    match Subsequence doc charPrev charNext with
    | (_, some e) => (doc, some e)
    | (sub, none) =>
      let position := Position doc charNext.ID - 1
      if sub.length = 0 then
        LocalInsert doc char position
      else if sub.length = 1 then
        LocalInsert doc char (position - 1)
      else
        let i := scanAux char.ID (sub.drop 1) 1
        integrateInsertF fuel doc char (sub.getD (i - 1) nullChar) (sub.getD i nullChar)

/-- `crdt.Document.IntegrateInsert` at the standing fuel. -/
def IntegrateInsert (doc : Document) (char charPrev charNext : Character) :
    Document × Option Err :=
  integrateInsertF (doc.Characters.length + 2) doc char charPrev charNext

/-- `crdt.Document.GenerateInsert`.  The Go globals `SiteID` and `LocalClock`
are passed explicitly; the clock is incremented first and the new clock value
is returned alongside the result, and the minted identity is the concatenation
of the decimal renderings of site and clock. -/
def GenerateInsert (doc : Document) (siteID clock : Nat) (position : Int)
    (value : String) : (Document × Option Err) × Nat :=
  let clock' := clock + 1
  let charPrev := IthVisible doc (position - 1)
  let charNext := IthVisible doc position
  let charPrev := if charPrev.ID = "-1" then Find doc "start" else charPrev
  let charNext := if charNext.ID = "-1" then Find doc "end" else charNext
  let char : Character :=
    { ID := natToDec siteID ++ natToDec clock'
      Visible := true
      Value := value
      IDPrevious := charPrev.ID
      IDNext := charNext.ID }
  (IntegrateInsert doc char charPrev charNext, clock')

/-- `crdt.Document.IntegrateDelete`: tombstone the first character whose
identity equals `char.ID`; silently drop when absent. -/
def IntegrateDelete (doc : Document) (char : Character) : Document :=
  let position := Position doc char.ID
  if position = -1 then doc
  else ⟨modifyAt (fun c => { c with Visible := false }) doc.Characters (position - 1).toNat⟩

/-- `crdt.Document.GenerateDelete`. -/
def GenerateDelete (doc : Document) (position : Int) : Document :=
  IntegrateDelete doc (IthVisible doc position)

/-!  Load (`crdt.Load`).  The file-system read is out of scope; the engine part
replays the text as local inserts at increasing visible positions.  A Go string
is a sequence of bytes: `len(lines[i])` and `lines[i][j]` count and index the
UTF-8 bytes of the line, and `string(lines[i][j])` converts the byte value to a
one-code-point string.  The byte sequence of a line is made explicit here
through the UTF-8 encoding of its characters.  A byte equal to 10 occurs in a
UTF-8 stream exactly at a newline character (continuation and lead bytes are at
least 128), so Go's byte-level `strings.Split` on a newline agrees with
splitting the character list on the newline character. -/

/-- The running state of `Load`: the document, the next insert position, the
local clock, and the first error if any (Go returns at the first error). -/
structure LoadSt where
  doc : Document
  pos : Int
  clock : Nat
  err : Option Err
deriving DecidableEq, Repr

/-- One `doc.Insert(pos, v)` call of `Load`: a `GenerateInsert` followed by the
`pos++`, short-circuited once an error has occurred. -/
def insertStep (site : Nat) (st : LoadSt) (v : String) : LoadSt :=
  match st.err with
  | some _ => st
  | none =>
    let r := GenerateInsert st.doc site st.clock st.pos v
    match r.1.2 with
    | some e => { st with doc := r.1.1, clock := r.2, err := some e }
    | none => { doc := r.1.1, pos := st.pos + 1, clock := r.2, err := none }

/-- The UTF-8 encoding of one character, as byte values. -/
def utf8Bytes (c : Char) : List Nat :=
  if c.toNat < 128 then [c.toNat]
  else if c.toNat < 2048 then
    [192 + c.toNat / 64, 128 + c.toNat % 64]
  else if c.toNat < 65536 then
    [224 + c.toNat / 4096, 128 + c.toNat / 64 % 64, 128 + c.toNat % 64]
  else
    [240 + c.toNat / 262144, 128 + c.toNat / 4096 % 64, 128 + c.toNat / 64 % 64,
      128 + c.toNat % 64]

/-- The byte sequence of one line, as Go's `lines[i][j]` indexes it. -/
def lineBytes (l : List Char) : List Nat := (l.map utf8Bytes).flatten

/-- The body of the inner loop of `Load`, iterated over the line's bytes:
`string(lines[i][j])` re-interprets the byte value as a code point before
inserting it. -/
def loadBytes (site : Nat) : LoadSt → List Nat → LoadSt
  | st, [] => st
  | st, b :: rest =>
    loadBytes site (insertStep site st (String.singleton (Char.ofNat b))) rest

/-- The inner loop of `Load`: insert every byte of one line. -/
def loadLine (site : Nat) (st : LoadSt) (l : List Char) : LoadSt :=
  loadBytes site st (lineBytes l)

/-- The outer loop of `Load`: process each line, inserting a literal newline
after every line but the last. -/
def loadLines (site : Nat) : LoadSt → List (List Char) → LoadSt
  | st, [] => st
  | st, [l] => loadLine site st l
  | st, l :: l' :: ls => loadLines site (insertStep site (loadLine site st l) "\n") (l' :: ls)

/-- `strings.Split(s, "\n")`: the pieces of `s` between newlines (one more
piece than there are newlines). -/
def splitNl : List Char → List (List Char)
  | [] => [[]]
  | c :: rest =>
    if c = '\n' then [] :: splitNl rest
    else
      match splitNl rest with
      | [] => [[c]]
      | l :: ls => (c :: l) :: ls

/-- The engine part of `crdt.Load`: split the text on newlines and replay it as
local inserts starting from the fresh document, position 1. -/
def Load (site clock : Nat) (text : String) : LoadSt :=
  loadLines site { doc := New, pos := 1, clock := clock, err := none } (splitNl text.data)

/-!  The server's session registry (`Clients` and its owner task
`Clients.handle` in the server source).  The owner task serialises requests;
one request is processed atomically per loop iteration, and a read-all emits
every record of the current map into the reply channel before the next request
is taken.  The map is modelled as a list of records keyed by `id` (the
`uuid.UUID` is abstracted to a number); a read-all output is the list of
emitted records. -/

/-- A registered peer record (`client`): identity, site-id, display name.  The
transport handle is out of scope. -/
structure ClientRec where
  id : Nat
  siteID : String
  username : String
deriving DecidableEq, Repr

/-- The registry requests relevant to the claims: `addRequests`,
`deleteRequests`, and a read-all `readRequests`. -/
inductive Request where
  | add (c : ClientRec)
  | delete (id : Nat)
  | readAll
deriving DecidableEq, Repr

/-- The state change of one owner-loop iteration (`Clients.handle`): `add`
stores the record under its key (overwriting an existing key, as a Go map
assignment does); `delete` (via `Clients.close`) removes the key when present
and otherwise leaves the map unchanged; `readAll` does not change the state. -/
def applyReq (s : List ClientRec) : Request → List ClientRec
  | .add c =>
    if s.any (fun x => x.id = c.id) then s.map (fun x => if x.id = c.id then c else x)
    else s ++ [c]
  | .delete i =>
    if s.any (fun x => x.id = i) then s.filter (fun x => x.id ≠ i) else s
  | .readAll => s

/-- `applyReq` folded over a request list. -/
def applyAll (s : List ClientRec) (rs : List Request) : List ClientRec :=
  rs.foldl applyReq s

/-- The read-all snapshots emitted while the owner task processes a request
list: each `readAll` emits every record of the map as it stands when that
request is taken (`for _, client := range c.list { req.resp <- client }`). -/
def outputs : List ClientRec → List Request → List (List ClientRec)
  | _, [] => []
  | s, Request.readAll :: rs => s :: outputs s rs
  | s, Request.add c :: rs => outputs (applyReq s (.add c)) rs
  | s, Request.delete i :: rs => outputs (applyReq s (.delete i)) rs

/-- `Clients.sendUsernames`: the presence-list payload accumulated as
`users += client.Username + ","` over the registry. -/
def sendUsernamesText (s : List ClientRec) : String :=
  s.foldl (fun users c => users ++ c.username ++ ",") ""

/-!  Spec-side definitions, used to compare code behaviour with the spec's
words. -/

/-- Modelled from the spec: the characters strictly between `a` and `b` in the
current sequence — the elements whose 0-based index lies strictly between the
index of (the first occurrence of) `a.ID` and that of `b.ID`, neither endpoint
included. -/
def strictlyBetween (doc : Document) (a b : Character) : List Character :=
  let i := (Position doc a.ID - 1).toNat
  let j := (Position doc b.ID - 1).toNat
  (doc.Characters.drop (i + 1)).take (j - i - 1)

/-- The sentinel invariant of the claims: the first character is the invisible
start sentinel, the last is the invisible end sentinel, and each sentinel
identity occurs exactly once. -/
def sentinelInv (doc : Document) : Prop :=
  (doc.Characters.map fun c => (c.ID, c.Visible)).head? = some ("start", false) ∧
  (doc.Characters.map fun c => (c.ID, c.Visible)).getLast? = some ("end", false) ∧
  (doc.Characters.map Character.ID).count "start" = 1 ∧
  (doc.Characters.map Character.ID).count "end" = 1

/-- One engine operation, as the claims allow them: a locally generated insert,
an integrate-insert of a generated operation (whose minted identity is never a
sentinel identity), a locally generated delete, or an integrate-delete. -/
inductive Step : Document → Document → Prop
  | genInsert (doc : Document) (site clock : Nat) (pos : Int) (v : String) :
      Step doc (GenerateInsert doc site clock pos v).1.1
  | intInsert (doc : Document) (c p n : Character)
      (h1 : c.ID ≠ "start") (h2 : c.ID ≠ "end") :
      Step doc (IntegrateInsert doc c p n).1
  | genDelete (doc : Document) (pos : Int) : Step doc (GenerateDelete doc pos)
  | intDelete (doc : Document) (c : Character) : Step doc (IntegrateDelete doc c)

/-- Reachability by engine operations. -/
def Reachable : Document → Document → Prop :=
  Relation.ReflTransGen Step

/-!  Helper lemmas. -/

theorem posAux_not_mem {id : String} {l : List Character} (h : ∀ c ∈ l, c.ID ≠ id) (i : Nat) :
    posAux id l i = -1 := by
  induction l generalizing i with
  | nil => rfl
  | cons c rest ih =>
    have hc : c.ID ≠ id := h c (List.mem_cons_self ..)
    simp only [posAux, if_neg (Ne.symm hc)]
    exact ih (fun c hc => h c (List.mem_cons_of_mem _ hc)) _

theorem posAux_append_first (id : String) (pre suf : List Character) (x : Character)
    (hpre : ∀ c ∈ pre, c.ID ≠ id) (hx : x.ID = id) (i : Nat) :
    posAux id (pre ++ x :: suf) i = (i : Int) + pre.length + 1 := by
  induction pre generalizing i with
  | nil => simp [posAux, hx]
  | cons c rest ih =>
    have hc : c.ID ≠ id := hpre c (List.mem_cons_self ..)
    simp only [List.cons_append, posAux, if_neg (Ne.symm hc), List.append_eq]
    rw [ih (fun c hc => hpre c (List.mem_cons_of_mem _ hc))]
    simp only [List.length_cons]
    push_cast
    ring

theorem posAux_ge {id : String} {l : List Character} {i : Nat} (h : posAux id l i ≠ -1) :
    (i : Int) + 1 ≤ posAux id l i := by
  induction l generalizing i with
  | nil => simp [posAux] at h
  | cons c rest ih =>
    by_cases hc : id = c.ID
    · simp only [posAux, if_pos hc]
      omega
    · simp only [posAux, if_neg hc] at h ⊢
      have := @ih (i + 1) h
      push_cast at this ⊢
      omega

theorem position_absent {doc : Document} {id : String}
    (h : ∀ c ∈ doc.Characters, c.ID ≠ id) : Position doc id = -1 :=
  posAux_not_mem h 0

theorem position_decomp {pre suf : List Character} {x : Character}
    (hpre : ∀ c ∈ pre, c.ID ≠ x.ID) :
    Position ⟨pre ++ x :: suf⟩ x.ID = (pre.length : Int) + 1 := by
  have := posAux_append_first x.ID pre suf x hpre rfl 0
  simpa [Position] using this

theorem findAux_decomp {pre suf : List Character} {x : Character} {id : String}
    (hpre : ∀ c ∈ pre, c.ID ≠ id) (hx : x.ID = id) :
    findAux id (pre ++ x :: suf) = x := by
  induction pre with
  | nil => simp [findAux, hx]
  | cons c rest ih =>
    have hc : c.ID ≠ id := hpre c (List.mem_cons_self ..)
    simp only [List.cons_append, findAux, if_neg hc]
    exact ih (fun c hc => hpre c (List.mem_cons_of_mem _ hc))

theorem modifyAt_decomp (f : Character → Character) (pre suf : List Character) (x : Character) :
    modifyAt f (pre ++ x :: suf) pre.length = pre ++ f x :: suf := by
  induction pre with
  | nil => rfl
  | cons c rest ih => simpa [modifyAt] using ih

theorem modifyAt_length (f : Character → Character) (l : List Character) (i : Nat) :
    (modifyAt f l i).length = l.length := by
  induction l generalizing i with
  | nil => rfl
  | cons c rest ih => cases i <;> simp [modifyAt, ih]

theorem modifyAt_map {g : Character → α} {f : Character → Character}
    (hf : ∀ c, g (f c) = g c) (l : List Character) (i : Nat) :
    (modifyAt f l i).map g = l.map g := by
  induction l generalizing i with
  | nil => rfl
  | cons c rest ih => cases i <;> simp [modifyAt, hf, ih]

theorem modifyAt_modifyAt {f : Character → Character} (hf : ∀ c, f (f c) = f c)
    (l : List Character) (i : Nat) :
    modifyAt f (modifyAt f l i) i = modifyAt f l i := by
  induction l generalizing i with
  | nil => rfl
  | cons c rest ih => cases i <;> simp [modifyAt, hf, ih]

theorem posAux_map_eq {l₁ l₂ : List Character} (h : l₁.map Character.ID = l₂.map Character.ID)
    (id : String) (i : Nat) : posAux id l₁ i = posAux id l₂ i := by
  induction l₁ generalizing l₂ i with
  | nil => cases l₂ <;> simp_all
  | cons c rest ih =>
    cases l₂ with
    | nil => simp at h
    | cons d rest₂ =>
      simp only [List.map_cons, List.cons.injEq] at h
      simp only [posAux, h.1]
      split
      · rfl
      · exact ih h.2 _

/-!  C6: the `LocalInsert` error contract. -/

/-- C6: for every document, character and integer position, `LocalInsert` fails
with `PositionOutOfBounds` exactly when `pos ≤ 0` or `pos ≥ length`, fails with
`EmptyIdentity` exactly when the position is in bounds and the character's
identity is the empty string, and on every failure it returns the document's
character sequence unchanged. -/
theorem localInsert_error_contract (doc : Document) (char : Character) (pos : Int) :
    ((LocalInsert doc char pos).2 = some Err.positionOutOfBounds ↔
      pos ≤ 0 ∨ pos ≥ (doc.Characters.length : Int)) ∧
    ((LocalInsert doc char pos).2 = some Err.emptyWCharacter ↔
      0 < pos ∧ pos < (doc.Characters.length : Int) ∧ char.ID = "") ∧
    ((LocalInsert doc char pos).2 ≠ none → (LocalInsert doc char pos).1 = doc) := by
  unfold LocalInsert
  by_cases h1 : pos ≤ 0 ∨ pos ≥ (doc.Characters.length : Int)
  · simp only [if_pos h1]
    refine ⟨by simp [h1], ?_, by simp⟩
    simp only [show ¬(0 < pos ∧ pos < (doc.Characters.length : Int) ∧ char.ID = "") by
      rcases h1 with h | h
      · rintro ⟨h2, _, _⟩; omega
      · rintro ⟨_, h2, _⟩; omega]
    simp
  · simp only [if_neg h1]
    by_cases h2 : char.ID = ""
    · simp only [if_pos h2]
      refine ⟨by simp [h1], ?_, by simp⟩
      have : 0 < pos ∧ pos < (doc.Characters.length : Int) := by
        push_neg at h1; exact ⟨by omega, by omega⟩
      simp [this, h2]
    · simp only [if_neg h2]
      refine ⟨by simp [h1], ?_, by simp⟩
      simp [h2]

/-- Witness for C6 at a concrete input: position 0 on the fresh document is out
of bounds. -/
theorem localInsert_error_contract_witness :
    (LocalInsert New nullChar 0).2 = some Err.positionOutOfBounds :=
  (localInsert_error_contract New nullChar 0).1.mpr (Or.inl (by decide))

/-!  C5: `IntegrateDelete`. -/

/-- C5: `IntegrateDelete` tombstones exactly the (first) character whose
identity equals the argument's, changing no other character and no other
field; when no character has that identity the document is returned completely
unchanged; and a repeated delete is a no-op. -/
theorem integrateDelete_spec (doc : Document) (char : Character) :
    ((∀ c ∈ doc.Characters, c.ID ≠ char.ID) → IntegrateDelete doc char = doc) ∧
    (∀ pre x suf, doc.Characters = pre ++ x :: suf → (∀ c ∈ pre, c.ID ≠ char.ID) →
      x.ID = char.ID →
      (IntegrateDelete doc char).Characters = pre ++ { x with Visible := false } :: suf) ∧
    IntegrateDelete (IntegrateDelete doc char) char = IntegrateDelete doc char := by
  refine ⟨?_, ?_, ?_⟩
  · intro h
    unfold IntegrateDelete
    simp [position_absent h]
  · intro pre x suf hdec hpre hx
    unfold IntegrateDelete
    have hpos : Position doc char.ID = (pre.length : Int) + 1 := by
      have := posAux_append_first char.ID pre suf x hpre hx 0
      rw [Position, hdec]
      simpa using this
    rw [hpos, if_neg (by omega), hdec]
    have htn : ((pre.length : Int) + 1 - 1).toNat = pre.length := by omega
    rw [htn, modifyAt_decomp]
  · unfold IntegrateDelete
    by_cases h : Position doc char.ID = -1
    · simp [h]
    · rw [if_neg h]
      have hmap : (modifyAt (fun c => { c with Visible := false }) doc.Characters
          (Position doc char.ID - 1).toNat).map Character.ID = doc.Characters.map Character.ID :=
        modifyAt_map (g := Character.ID) (f := fun c => { c with Visible := false })
          (fun c => rfl) _ _
      have hpos : Position ⟨modifyAt (fun c => { c with Visible := false }) doc.Characters
          (Position doc char.ID - 1).toNat⟩ char.ID = Position doc char.ID :=
        posAux_map_eq hmap char.ID 0
      simp only [hpos, if_neg h]
      exact congrArg Document.mk
        (modifyAt_modifyAt (f := fun c => { c with Visible := false }) (fun c => rfl) _ _)

/-- Witness for C5 at a concrete input: deleting the sole character of a
one-character document tombstones exactly it. -/
theorem integrateDelete_spec_witness :
    (IntegrateDelete ⟨[StartChar, ⟨"11", true, "a", "start", "end"⟩, EndChar]⟩
        ⟨"11", true, "a", "start", "end"⟩).Characters =
      [StartChar] ++ ⟨"11", false, "a", "start", "end"⟩ :: [EndChar] :=
  (integrateDelete_spec ⟨[StartChar, ⟨"11", true, "a", "start", "end"⟩, EndChar]⟩
    ⟨"11", true, "a", "start", "end"⟩).2.1 [StartChar] ⟨"11", true, "a", "start", "end"⟩
    [EndChar] (by decide) (by decide) (by decide)

/-!  C9: the presence-list payload. -/

theorem sendUsernames_foldl (s : List ClientRec) (acc : String) :
    (s.foldl (fun users c => users ++ c.username ++ ",") acc).data =
      acc.data ++ (s.map fun c => c.username.data ++ [',']).flatten := by
  induction s generalizing acc with
  | nil => simp
  | cons c rest ih =>
    simp only [List.foldl_cons, ih, List.map_cons, List.flatten_cons]
    simp [String.data_append]

/-- Counterexample to C9 as stated: with the single registered display name
`"A"`, the payload is `"A,"`, which is not the comma-delimited list `"A"` (it
carries one comma, not zero, and ends in a trailing delimiter). -/
theorem sendUsernames_payload_cex :
    sendUsernamesText [⟨0, "1", "A"⟩] ≠ String.intercalate "," ["A"] ∧
    (sendUsernamesText [⟨0, "1", "A"⟩]).data.count ',' ≠ ["A"].length - 1 :=
  ⟨by decide, by decide⟩

/-- C9 amended: the payload of the users message is the concatenation, in
registry iteration order, of each registered display name followed by a comma
— a trailing delimiter, hence `n` commas for `n` comma-free names rather than
`n − 1`. -/
theorem sendUsernames_payload (s : List ClientRec) :
    (sendUsernamesText s).data = (s.map fun c => c.username.data ++ [',']).flatten ∧
    ((∀ c ∈ s, ',' ∉ c.username.data) →
      (sendUsernamesText s).data.count ',' = s.length) := by
  constructor
  · simpa using sendUsernames_foldl s ""
  · intro h
    have hdata : (sendUsernamesText s).data = (s.map fun c => c.username.data ++ [',']).flatten := by
      simpa using sendUsernames_foldl s ""
    rw [hdata]
    clear hdata
    induction s with
    | nil => rfl
    | cons c rest ih =>
      simp only [List.map_cons, List.flatten_cons, List.count_append, List.length_cons]
      rw [ih (fun c hc => h c (List.mem_cons_of_mem _ hc))]
      have hc : ',' ∉ c.username.data := h c (List.mem_cons_self ..)
      have : c.username.data.count ',' = 0 := List.count_eq_zero.mpr hc
      simp [List.count_append, this, List.count_cons]
      omega

/-- Witness for C9 amended at a concrete registry: names `"A"`, `"B"` yield
payload `"A,B,"` with two commas. -/
theorem sendUsernames_payload_witness :
    (sendUsernamesText [⟨0, "1", "A"⟩, ⟨1, "2", "B"⟩]).data.count ',' = 2 :=
  (sendUsernames_payload [⟨0, "1", "A"⟩, ⟨1, "2", "B"⟩]).2 (by decide)

/-!  C8: registry add/delete/read-all. -/

/-- C8: after the owner task processes Add for peers A, B, C and Delete for B,
a Read-all emits exactly the records of A and C, each exactly once; and in
general a Read-all is processed atomically, so the snapshot it emits is exactly
the registry contents when the request is taken, whatever requests come before
or after. -/
theorem registry_readall (A B C : ClientRec)
    (hab : A.id ≠ B.id) (hbc : B.id ≠ C.id) (hac : A.id ≠ C.id) :
    outputs [] [.add A, .add B, .add C, .delete B.id, .readAll] = [[A, C]] ∧
    ∀ (s : List ClientRec) (pre post : List Request),
      outputs s (pre ++ Request.readAll :: post) =
        outputs s pre ++ applyAll s pre :: outputs (applyAll s pre) post := by
  constructor
  · simp [outputs, applyReq, hab, hbc, hac, Ne.symm hab, Ne.symm hbc, Ne.symm hac]
  · intro s pre post
    induction pre generalizing s with
    | nil => simp [outputs, applyAll]
    | cons r rest ih =>
      cases r <;> simp [outputs, applyAll, applyReq, ih]

/-- Witness for C8 at concrete peers. -/
theorem registry_readall_witness :
    outputs [] [.add ⟨0, "1", "A"⟩, .add ⟨1, "2", "B"⟩, .add ⟨2, "3", "C"⟩,
      .delete 1, .readAll] = [[⟨0, "1", "A"⟩, ⟨2, "3", "C"⟩]] :=
  (registry_readall ⟨0, "1", "A"⟩ ⟨1, "2", "B"⟩ ⟨2, "3", "C"⟩
    (by decide) (by decide) (by decide)).1

/-!  Step lemmas for `IntegrateInsert` on documents with pairwise-distinct
identities. -/

theorem modifyAt_decomp' (f : Character → Character) {l : List Character}
    (pre : List Character) (x : Character) (suf : List Character) {i : Nat}
    (hl : l = pre ++ x :: suf) (hi : pre.length = i) :
    modifyAt f l i = pre ++ f x :: suf := by
  subst hl; subst hi; exact modifyAt_decomp f pre suf x

theorem nodup_decomp_facts (l₁ l₂ : List Character) (X : Character)
    (h : ((l₁ ++ X :: l₂).map Character.ID).Nodup) :
    (∀ a ∈ l₁, a.ID ≠ X.ID) ∧ (∀ a ∈ l₂, a.ID ≠ X.ID) := by
  simp only [List.map_append, List.map_cons, List.nodup_append, List.nodup_cons] at h
  obtain ⟨-, ⟨hX, -⟩, hdisj⟩ := h
  refine ⟨?_, ?_⟩
  · intro a ha heq
    exact hdisj (List.mem_map_of_mem _ ha) (by simp [heq])
  · intro a ha heq
    exact hX (heq ▸ List.mem_map_of_mem Character.ID ha)

/-- `LocalInsert` at internal position `|l₁| + 1` of a document
`l₁ ++ X :: S :: rest`: splice the character after `X` and rewrite the two
neighbour pointers. -/
theorem localInsert_decomp (l₁ : List Character) (X S : Character) (rest : List Character)
    (char : Character) (hid : char.ID ≠ "") :
    LocalInsert ⟨l₁ ++ X :: S :: rest⟩ char ((l₁.length : Int) + 1) =
      (⟨l₁ ++ { X with IDNext := char.ID } :: char ::
          { S with IDPrevious := char.ID } :: rest⟩, none) := by
  unfold LocalInsert
  have hlen : (((l₁ ++ X :: S :: rest).length : Int)) = (l₁.length : Int) + 2 + rest.length := by
    push_cast [List.length_append, List.length_cons]
    ring
  have hc1 : ¬((l₁.length : Int) + 1 ≤ 0 ∨
      (l₁.length : Int) + 1 ≥ ((l₁ ++ X :: S :: rest).length : Int)) := by
    rw [hlen]
    omega
  rw [if_neg hc1, if_neg hid]
  simp only
  have hp : ((l₁.length : Int) + 1).toNat = l₁.length + 1 := by omega
  rw [hp]
  have htake : (l₁ ++ X :: S :: rest).take (l₁.length + 1) = l₁ ++ [X] := by
    rw [show l₁ ++ X :: S :: rest = (l₁ ++ [X]) ++ S :: rest by simp]
    exact List.take_left' (by simp)
  have hdrop : (l₁ ++ X :: S :: rest).drop (l₁.length + 1) = S :: rest := by
    rw [show l₁ ++ X :: S :: rest = (l₁ ++ [X]) ++ S :: rest by simp]
    exact List.drop_left' (by simp)
  rw [htake, hdrop]
  have h1 : modifyAt (fun c => { c with IDNext := char.ID })
      ((l₁ ++ [X]) ++ char :: S :: rest) (l₁.length + 1 - 1) =
      l₁ ++ { X with IDNext := char.ID } :: char :: S :: rest :=
    modifyAt_decomp' _ l₁ X (char :: S :: rest) (by simp) (by omega)
  rw [h1]
  have h2 : modifyAt (fun c => { c with IDPrevious := char.ID })
      ((l₁ ++ [{ X with IDNext := char.ID }, char]) ++ S :: rest) (l₁.length + 1 + 1) =
      (l₁ ++ [{ X with IDNext := char.ID }, char]) ++
        { S with IDPrevious := char.ID } :: rest :=
    modifyAt_decomp' _ (l₁ ++ [{ X with IDNext := char.ID }, char]) S rest
      (by simp) (by simp)
  rw [show l₁ ++ { X with IDNext := char.ID } :: char :: S :: rest =
    (l₁ ++ [{ X with IDNext := char.ID }, char]) ++ S :: rest by simp]
  rw [h2]
  simp

/-- When `prev` and `next` are adjacent in the sequence (empty subsequence),
one `IntegrateInsert` step places the new character between them and rewrites
the two neighbour pointers. -/
theorem iiF_adjacent (fuel : Nat) (doc : Document) (char X Y P N : Character)
    (l₁ l₃ : List Character) (hdec : doc.Characters = l₁ ++ X :: Y :: l₃)
    (hnd : (doc.Characters.map Character.ID).Nodup) (hid : char.ID ≠ "")
    (hP : P.ID = X.ID) (hN : N.ID = Y.ID) :
    integrateInsertF (fuel + 1) doc char P N =
      (⟨l₁ ++ { X with IDNext := char.ID } :: char ::
          { Y with IDPrevious := char.ID } :: l₃⟩, none) := by
  obtain ⟨cs⟩ := doc
  simp only at hdec
  subst hdec
  have hfacts := nodup_decomp_facts l₁ (Y :: l₃) X hnd
  have hndY : (((l₁ ++ [X]) ++ Y :: l₃).map Character.ID).Nodup := by
    simpa [List.append_assoc] using hnd
  have hfactsY := nodup_decomp_facts (l₁ ++ [X]) l₃ Y hndY
  have hposX : Position ⟨l₁ ++ X :: Y :: l₃⟩ X.ID = (l₁.length : Int) + 1 :=
    position_decomp hfacts.1
  have hposY : Position ⟨l₁ ++ X :: Y :: l₃⟩ Y.ID = (l₁.length : Int) + 2 := by
    have h := posAux_append_first Y.ID (l₁ ++ [X]) l₃ Y hfactsY.1 rfl 0
    rw [Position, show l₁ ++ X :: Y :: l₃ = (l₁ ++ [X]) ++ Y :: l₃ by simp, h]
    push_cast
    simp
    ring
  have hsub : Subsequence ⟨l₁ ++ X :: Y :: l₃⟩ P N = ([], none) := by
    unfold Subsequence
    rw [hP, hN, hposX, hposY]
    have hc1 : ¬((l₁.length : Int) + 1 = -1 ∨ (l₁.length : Int) + 2 = -1) := by omega
    have hc2 : ¬((l₁.length : Int) + 1 > (l₁.length : Int) + 2) := by omega
    have hc3 : ¬((l₁.length : Int) + 1 = (l₁.length : Int) + 2) := by omega
    rw [if_neg hc1, if_neg hc2, if_neg hc3]
    have h0 : ((l₁.length : Int) + 2 - 1).toNat - ((l₁.length : Int) + 1).toNat = 0 := by omega
    rw [h0, List.take_zero]
  have harith : Position ⟨l₁ ++ X :: Y :: l₃⟩ N.ID - 1 = (l₁.length : Int) + 1 := by
    rw [hN, hposY]; ring
  simp only [integrateInsertF, hsub, List.length_nil, harith]
  norm_num
  exact localInsert_decomp l₁ X Y l₃ char hid

/-- When exactly one character sits between `prev` and `next` (singleton
subsequence), one `IntegrateInsert` step places the new character immediately
after `prev`, before that middle character, whatever the identity order. -/
theorem iiF_single (fuel : Nat) (doc : Document) (char X M Y P N : Character)
    (l₁ l₃ : List Character) (hdec : doc.Characters = l₁ ++ X :: M :: Y :: l₃)
    (hnd : (doc.Characters.map Character.ID).Nodup) (hid : char.ID ≠ "")
    (hP : P.ID = X.ID) (hN : N.ID = Y.ID) :
    integrateInsertF (fuel + 1) doc char P N =
      (⟨l₁ ++ { X with IDNext := char.ID } :: char ::
          { M with IDPrevious := char.ID } :: Y :: l₃⟩, none) := by
  obtain ⟨cs⟩ := doc
  simp only at hdec
  subst hdec
  have hfacts := nodup_decomp_facts l₁ (M :: Y :: l₃) X hnd
  have hndY : (((l₁ ++ [X, M]) ++ Y :: l₃).map Character.ID).Nodup := by
    simpa [List.append_assoc] using hnd
  have hfactsY := nodup_decomp_facts (l₁ ++ [X, M]) l₃ Y hndY
  have hposX : Position ⟨l₁ ++ X :: M :: Y :: l₃⟩ X.ID = (l₁.length : Int) + 1 :=
    position_decomp hfacts.1
  have hposY : Position ⟨l₁ ++ X :: M :: Y :: l₃⟩ Y.ID = (l₁.length : Int) + 3 := by
    have h := posAux_append_first Y.ID (l₁ ++ [X, M]) l₃ Y hfactsY.1 rfl 0
    rw [Position, show l₁ ++ X :: M :: Y :: l₃ = (l₁ ++ [X, M]) ++ Y :: l₃ by simp, h]
    push_cast
    simp
    ring
  have hsub : Subsequence ⟨l₁ ++ X :: M :: Y :: l₃⟩ P N = ([M], none) := by
    unfold Subsequence
    rw [hP, hN, hposX, hposY]
    have hc1 : ¬((l₁.length : Int) + 1 = -1 ∨ (l₁.length : Int) + 3 = -1) := by omega
    have hc2 : ¬((l₁.length : Int) + 1 > (l₁.length : Int) + 3) := by omega
    have hc3 : ¬((l₁.length : Int) + 1 = (l₁.length : Int) + 3) := by omega
    rw [if_neg hc1, if_neg hc2, if_neg hc3]
    have h1 : ((l₁.length : Int) + 1).toNat = l₁.length + 1 := by omega
    have h2 : ((l₁.length : Int) + 3 - 1).toNat - (l₁.length + 1) = 1 := by omega
    rw [h1, h2]
    rw [show l₁ ++ X :: M :: Y :: l₃ = (l₁ ++ [X]) ++ M :: Y :: l₃ by simp]
    rw [List.drop_left' (by simp)]
    rfl
  have harith : Position ⟨l₁ ++ X :: M :: Y :: l₃⟩ N.ID - 1 - 1 = (l₁.length : Int) + 1 := by
    rw [hN, hposY]; ring
  simp only [integrateInsertF, hsub, List.length_cons, List.length_nil, harith]
  norm_num
  exact localInsert_decomp l₁ X M (Y :: l₃) char hid

/-!  C1: the two-peer same-slot scenario diverges. -/

/-- C1: peers P1 (site 1) and P2 (site 2), both with local clock 0, insert
`"a"` resp. `"b"` at visible position 1 of fresh documents and then integrate
each other's generated operation (original identity and prev/next references).
The code leaves P1 at content `"ba"` and P2 at `"ab"`: the replicas diverge
instead of agreeing on the identity-order outcome — the `|S| = 1` branch of
`IntegrateInsert` inserts before the sole middle character without comparing
identities. -/
theorem concurrent_insert_divergence :
    Content (IntegrateInsert (GenerateInsert New 1 0 1 "a").1.1
        ⟨natToDec 2 ++ natToDec 1, true, "b", "start", "end"⟩ StartChar EndChar).1 = "ba" ∧
    Content (IntegrateInsert (GenerateInsert New 2 0 1 "b").1.1
        ⟨natToDec 1 ++ natToDec 1, true, "a", "start", "end"⟩ StartChar EndChar).1 = "ab" ∧
    Content (IntegrateInsert (GenerateInsert New 1 0 1 "a").1.1
        ⟨natToDec 2 ++ natToDec 1, true, "b", "start", "end"⟩ StartChar EndChar).1 ≠
      Content (IntegrateInsert (GenerateInsert New 2 0 1 "b").1.1
        ⟨natToDec 1 ++ natToDec 1, true, "a", "start", "end"⟩ StartChar EndChar).1 := by
  refine ⟨by decide, by decide, by decide⟩

/-!  C2: integrate-insert is not idempotent. -/

/-- Counterexample to C2 as stated: integrating the same character (identity
`"11"`, between the sentinels) twice into a fresh document is not a no-op —
the second application changes the document and leaves the identity in the
sequence twice. -/
theorem integrateInsert_not_idempotent_cex :
    (IntegrateInsert (IntegrateInsert New ⟨"11", true, "a", "start", "end"⟩ StartChar EndChar).1
        ⟨"11", true, "a", "start", "end"⟩ StartChar EndChar).1 ≠
      (IntegrateInsert New ⟨"11", true, "a", "start", "end"⟩ StartChar EndChar).1 ∧
    ((IntegrateInsert (IntegrateInsert New ⟨"11", true, "a", "start", "end"⟩ StartChar EndChar).1
        ⟨"11", true, "a", "start", "end"⟩ StartChar EndChar).1.Characters.map
          Character.ID).count "11" = 2 :=
  ⟨by decide, by decide⟩

/-- C2 amended: integrate-insert is not idempotent.  For every character `c`
with a non-sentinel, non-empty identity, applying
`integrate_insert(c, start, end)` to the fresh document and then applying the
same operation again inserts a second copy: the resulting document differs
from the first and carries `c`'s identity twice in the sequence. -/
theorem integrateInsert_second_copy (c : Character)
    (h0 : c.ID ≠ "") (h1 : c.ID ≠ "start") (h2 : c.ID ≠ "end") :
    ((IntegrateInsert (IntegrateInsert New c StartChar EndChar).1 c StartChar
        EndChar).1.Characters.map Character.ID).count c.ID = 2 ∧
    (IntegrateInsert (IntegrateInsert New c StartChar EndChar).1 c StartChar EndChar).1 ≠
      (IntegrateInsert New c StartChar EndChar).1 := by
  have hstep1 : IntegrateInsert New c StartChar EndChar =
      (⟨[⟨"start", false, "", "", c.ID⟩, c, ⟨"end", false, "", c.ID, ""⟩]⟩, none) := by
    have h := iiF_adjacent 3 New c StartChar EndChar StartChar EndChar [] [] rfl
      (by decide) h0 rfl rfl
    simpa [IntegrateInsert, New] using h
  have hnd2 : ((((⟨"start", false, "", "", c.ID⟩ : Character) :: c ::
      (⟨"end", false, "", c.ID, ""⟩ : Character) :: []).map Character.ID)).Nodup := by
    simp [List.nodup_cons, Ne.symm h1, h2]
  have hstep2 : IntegrateInsert
      (⟨[⟨"start", false, "", "", c.ID⟩, c, ⟨"end", false, "", c.ID, ""⟩]⟩ : Document)
      c StartChar EndChar =
      (⟨[⟨"start", false, "", "", c.ID⟩, c, { c with IDPrevious := c.ID },
        ⟨"end", false, "", c.ID, ""⟩]⟩, none) := by
    have h := iiF_single 4 ⟨[⟨"start", false, "", "", c.ID⟩, c, ⟨"end", false, "", c.ID, ""⟩]⟩
      c ⟨"start", false, "", "", c.ID⟩ c ⟨"end", false, "", c.ID, ""⟩ StartChar EndChar
      [] [] rfl (by simpa using hnd2) h0 rfl rfl
    simpa [IntegrateInsert] using h
  rw [hstep1]
  simp only
  rw [hstep2]
  refine ⟨?_, ?_⟩
  · simp [List.count_cons, Ne.symm h1, Ne.symm h2]
  · intro h
    have := congrArg (fun d => d.Characters.length) h
    simp at this

/-- Witness for C2 amended at the concrete character with identity `"11"`. -/
theorem integrateInsert_second_copy_witness :
    ((IntegrateInsert (IntegrateInsert New ⟨"11", true, "a", "start", "end"⟩ StartChar
        EndChar).1 ⟨"11", true, "a", "start", "end"⟩ StartChar
        EndChar).1.Characters.map Character.ID).count "11" = 2 :=
  (integrateInsert_second_copy ⟨"11", true, "a", "start", "end"⟩
    (by decide) (by decide) (by decide)).1

/-!  C3: `Subsequence` returns exactly the strictly-between characters. -/

theorem position_ge {doc : Document} {id : String} (h : Position doc id ≠ -1) :
    1 ≤ Position doc id := by
  have := @posAux_ge id doc.Characters 0 (by simpa [Position] using h)
  simpa [Position] using this

/-- C3: for every document and characters `a`, `b`, `Subsequence` fails with
`BoundsNotPresent` exactly when `a` or `b` is absent or `a`'s position exceeds
`b`'s; when both are present in order it returns exactly the characters
strictly between them in current sequence order, and in particular the empty
slice when their positions are equal or adjacent. -/
theorem subsequence_spec (doc : Document) (a b : Character) :
    ((Subsequence doc a b).2 = some Err.boundsNotPresent ↔
      Position doc a.ID = -1 ∨ Position doc b.ID = -1 ∨
        Position doc a.ID > Position doc b.ID) ∧
    (Position doc a.ID ≠ -1 → Position doc b.ID ≠ -1 →
      Position doc a.ID ≤ Position doc b.ID →
      (Subsequence doc a b).1 = strictlyBetween doc a b) ∧
    (Position doc a.ID ≠ -1 → Position doc b.ID ≠ -1 →
      Position doc a.ID ≤ Position doc b.ID →
      Position doc b.ID ≤ Position doc a.ID + 1 →
      (Subsequence doc a b).1 = []) := by
  unfold Subsequence strictlyBetween
  simp only
  by_cases h1 : Position doc a.ID = -1 ∨ Position doc b.ID = -1
  · rw [if_pos h1]
    exact ⟨by simpa using Or.imp_right Or.inl h1, fun ha hb => absurd h1 (by tauto),
      fun ha hb => absurd h1 (by tauto)⟩
  · rw [if_neg h1]
    push_neg at h1
    have hpa : 1 ≤ Position doc a.ID := position_ge h1.1
    have hpb : 1 ≤ Position doc b.ID := position_ge h1.2
    by_cases h2 : Position doc a.ID > Position doc b.ID
    · rw [if_pos h2]
      exact ⟨by simp [h2], fun _ _ hle => absurd h2 (by omega),
        fun _ _ hle _ => absurd h2 (by omega)⟩
    · rw [if_neg h2]
      by_cases h3 : Position doc a.ID = Position doc b.ID
      · rw [if_pos h3]
        refine ⟨by simp [h1.1, h1.2, h2], fun _ _ _ => ?_, fun _ _ _ _ => rfl⟩
        have e : (Position doc b.ID - 1).toNat - (Position doc a.ID - 1).toNat - 1 = 0 := by
          omega
        rw [e, List.take_zero]
      · rw [if_neg h3]
        have e1 : (Position doc a.ID - 1).toNat + 1 = (Position doc a.ID).toNat := by omega
        have e2 : (Position doc b.ID - 1).toNat - (Position doc a.ID - 1).toNat - 1 =
            (Position doc b.ID - 1).toNat - (Position doc a.ID).toNat := by omega
        refine ⟨by simp [h1.1, h1.2, h2], fun _ _ _ => by rw [e1, e2], fun _ _ _ hadj => ?_⟩
        have e3 : (Position doc b.ID - 1).toNat - (Position doc a.ID).toNat = 0 := by omega
        rw [e3, List.take_zero]

/-- Witness for C3 at a concrete document: between the sentinels of a
three-character document lies exactly the middle character. -/
theorem subsequence_spec_witness :
    (Subsequence ⟨[StartChar, ⟨"11", true, "a", "start", "end"⟩, EndChar]⟩
        StartChar EndChar).1 =
      strictlyBetween ⟨[StartChar, ⟨"11", true, "a", "start", "end"⟩, EndChar]⟩
        StartChar EndChar :=
  (subsequence_spec ⟨[StartChar, ⟨"11", true, "a", "start", "end"⟩, EndChar]⟩
    StartChar EndChar).2.1 (by decide) (by decide) (by decide)

/-!  Digit facts about minted identities. -/

theorem digitChar_isDigit {n : Nat} (h : n < 10) : (Nat.digitChar n).isDigit := by
  interval_cases n <;> decide

theorem decAux_ne_nil (n : Nat) : decAux (n + 1) n ≠ [] := by
  unfold decAux
  split <;> simp

theorem decAux_digits : ∀ fuel n, ∀ c ∈ decAux fuel n, c.isDigit := by
  intro fuel
  induction fuel with
  | zero => intro n c hc; simp [decAux] at hc
  | succ f ih =>
    intro n c hc
    unfold decAux at hc
    split at hc
    · rw [List.mem_singleton] at hc
      exact hc ▸ digitChar_isDigit (by assumption)
    · rw [List.mem_append] at hc
      rcases hc with hc | hc
      · exact ih _ c hc
      · rw [List.mem_singleton] at hc
        exact hc ▸ digitChar_isDigit (Nat.mod_lt _ (by omega))

theorem genID_head_digit (a b : Nat) :
    ∃ c cs, (natToDec a ++ natToDec b).data = c :: cs ∧ c.isDigit := by
  obtain ⟨c, cs, hc⟩ := List.exists_cons_of_ne_nil (decAux_ne_nil a)
  refine ⟨c, cs ++ (natToDec b).data, ?_, ?_⟩
  · rw [String.data_append, show (natToDec a).data = decAux (a + 1) a from rfl, hc]
    simp
  · exact decAux_digits (a + 1) a c (by rw [hc]; exact List.mem_cons_self ..)

theorem genID_ne (a b : Nat) (t : String) (ht : ∀ c cs, t.data = c :: cs → ¬c.isDigit) :
    natToDec a ++ natToDec b ≠ t := by
  intro h
  obtain ⟨c, cs, hdata, hdig⟩ := genID_head_digit a b
  rw [h] at hdata
  exact ht c cs hdata hdig

theorem genID_ne_start (a b : Nat) : natToDec a ++ natToDec b ≠ "start" := by
  refine genID_ne a b "start" ?_
  intro c cs h
  rw [show ("start" : String).data = ['s', 't', 'a', 'r', 't'] from rfl] at h
  cases h
  decide

theorem genID_ne_end (a b : Nat) : natToDec a ++ natToDec b ≠ "end" := by
  refine genID_ne a b "end" ?_
  intro c cs h
  rw [show ("end" : String).data = ['e', 'n', 'd'] from rfl] at h
  cases h
  decide

theorem genID_ne_empty (a b : Nat) : natToDec a ++ natToDec b ≠ "" := by
  intro h
  obtain ⟨c, cs, hdata, -⟩ := genID_head_digit a b
  rw [h] at hdata
  exact List.cons_ne_nil c cs hdata.symm

/-!  C7: the sentinel invariant. -/

theorem modifyAt_head? (f : Character → Character) (l : List Character) (i : Nat) :
    (modifyAt f l i).head? = l.head? ∨ (modifyAt f l i).head? = l.head?.map f := by
  cases l with
  | nil => exact Or.inl rfl
  | cons c rest => cases i with
    | zero => exact Or.inr rfl
    | succ j => exact Or.inl rfl

theorem modifyAt_getLast? (f : Character → Character) (l : List Character) (i : Nat) :
    (modifyAt f l i).getLast? = l.getLast? ∨
      (modifyAt f l i).getLast? = l.getLast?.map f := by
  induction l generalizing i with
  | nil => exact Or.inl rfl
  | cons c rest ih =>
    cases i with
    | zero =>
      cases rest with
      | nil => exact Or.inr rfl
      | cons d rest' => exact Or.inl (by simp [modifyAt, List.getLast?_cons_cons])
    | succ j =>
      cases rest with
      | nil => exact Or.inl rfl
      | cons d rest' =>
        have := ih (i := j)
        simp only [modifyAt]
        cases hm : modifyAt f (d :: rest') j with
        | nil => exact absurd (congrArg List.length hm) (by simp [modifyAt_length])
        | cons e rest'' =>
          rw [List.getLast?_cons_cons, ← hm, List.getLast?_cons_cons]
          exact this

theorem head?_take_pos {α : Type} {l : List α} {p : Nat} (hp : 1 ≤ p) :
    (l.take p).head? = l.head? := by
  cases l with
  | nil => simp
  | cons c rest =>
    cases p with
    | zero => omega
    | succ q => simp

theorem getLast?_drop_of_lt {α : Type} {l : List α} {p : Nat} (hp : p < l.length) :
    (l.drop p).getLast? = l.getLast? := by
  induction l generalizing p with
  | nil => simp at hp
  | cons c rest ih =>
    cases p with
    | zero => simp
    | succ q =>
      simp only [List.length_cons, Nat.succ_lt_succ_iff] at hp
      rw [List.drop_succ_cons, ih hp]
      cases rest with
      | nil => simp at hp
      | cons d rest' => rw [List.getLast?_cons_cons]

theorem getLast?_cons_of_ne_nil {α : Type} {l : List α} (a : α) (h : l ≠ []) :
    (a :: l).getLast? = l.getLast? := by
  cases l with
  | nil => exact absurd rfl h
  | cons d rest => exact List.getLast?_cons_cons ..

theorem localInsert_sentinelInv {doc : Document} {char : Character} {pos : Int}
    (h1 : char.ID ≠ "start") (h2 : char.ID ≠ "end") (hinv : sentinelInv doc) :
    sentinelInv (LocalInsert doc char pos).1 := by
  unfold LocalInsert
  by_cases hb : pos ≤ 0 ∨ pos ≥ (doc.Characters.length : Int)
  · rwa [if_pos hb]
  · rw [if_neg hb]
    by_cases he : char.ID = ""
    · rwa [if_pos he]
    · rw [if_neg he]
      simp only
      push_neg at hb
      set l := doc.Characters with hl
      have hp1 : 1 ≤ pos.toNat := by omega
      have hp2 : pos.toNat < l.length := by omega
      set p := pos.toNat with hp
      obtain ⟨hhead, hlast, hcs, hce⟩ := hinv
      have hmpair : ∀ {α : Type} (g : Character → α),
          (∀ c, g { c with IDNext := char.ID } = g c) →
          (∀ c, g { c with IDPrevious := char.ID } = g c) →
          (modifyAt (fun c => { c with IDPrevious := char.ID })
            (modifyAt (fun c => { c with IDNext := char.ID })
              (l.take p ++ char :: l.drop p) (p - 1)) (p + 1)).map g =
            (l.map g).take p ++ g char :: (l.map g).drop p := by
        intro α g hg1 hg2
        rw [modifyAt_map hg2, modifyAt_map hg1]
        simp [List.map_take, List.map_drop]
      constructor
      · rw [hmpair (fun c => (c.ID, c.Visible)) (fun c => rfl) (fun c => rfl), List.head?_append,
          head?_take_pos (l := l.map fun c => (c.ID, c.Visible)) hp1, hhead]
        rfl
      constructor
      · rw [hmpair (fun c => (c.ID, c.Visible)) (fun c => rfl) (fun c => rfl), List.getLast?_append,
          getLast?_cons_of_ne_nil _ (by simp [List.drop_eq_nil_iff]; omega),
          getLast?_drop_of_lt (by simpa using hp2), hlast]
        rfl
      constructor
      · rw [hmpair Character.ID (fun c => rfl) (fun c => rfl)]
        rw [List.count_append, List.count_cons]
        have := List.take_append_drop p (l.map Character.ID)
        have hcnt : ((l.map Character.ID).take p).count "start" +
            ((l.map Character.ID).drop p).count "start" = 1 := by
          rw [← List.count_append, this, hcs]
        simp [h1, Ne.symm h1]
        omega
      · rw [hmpair Character.ID (fun c => rfl) (fun c => rfl)]
        rw [List.count_append, List.count_cons]
        have := List.take_append_drop p (l.map Character.ID)
        have hcnt : ((l.map Character.ID).take p).count "end" +
            ((l.map Character.ID).drop p).count "end" = 1 := by
          rw [← List.count_append, this, hce]
        simp [h2, Ne.symm h2]
        omega

theorem iiF_sentinelInv (fuel : Nat) (doc : Document) (char cPrev cNext : Character)
    (h1 : char.ID ≠ "start") (h2 : char.ID ≠ "end") (hinv : sentinelInv doc) :
    sentinelInv (integrateInsertF fuel doc char cPrev cNext).1 := by
  induction fuel generalizing doc cPrev cNext with
  | zero => exact hinv
  | succ f ih =>
    rw [integrateInsertF]
    rcases hS : Subsequence doc cPrev cNext with ⟨sub, e⟩
    cases e with
    | some err => exact hinv
    | none =>
      simp only
      split
      · exact localInsert_sentinelInv h1 h2 hinv
      · split
        · exact localInsert_sentinelInv h1 h2 hinv
        · exact ih doc _ _ hinv

theorem integrateDelete_sentinelInv (doc : Document) (c : Character)
    (hinv : sentinelInv doc) : sentinelInv (IntegrateDelete doc c) := by
  unfold IntegrateDelete
  by_cases h : Position doc c.ID = -1
  · rwa [if_pos h]
  · rw [if_neg h]
    obtain ⟨hhead, hlast, hcs, hce⟩ := hinv
    set q := (Position doc c.ID - 1).toNat with hq
    set f : Character → Character := fun c => { c with Visible := false } with hf
    refine ⟨?_, ?_, ?_, ?_⟩
    · rw [List.head?_map]
      rw [List.head?_map] at hhead
      obtain ⟨s, hs, hps⟩ := Option.map_eq_some'.mp hhead
      rcases modifyAt_head? f doc.Characters q with hcase | hcase
      · rw [hcase, hs, Option.map_some']
        exact congrArg some hps
      · rw [hcase, hs, Option.map_some', Option.map_some']
        refine congrArg some ?_
        have : s.ID = "start" := congrArg Prod.fst hps
        simp [hf, this]
    · rw [List.getLast?_map]
      rw [List.getLast?_map] at hlast
      obtain ⟨s, hs, hps⟩ := Option.map_eq_some'.mp hlast
      rcases modifyAt_getLast? f doc.Characters q with hcase | hcase
      · rw [hcase, hs, Option.map_some']
        exact congrArg some hps
      · rw [hcase, hs, Option.map_some', Option.map_some']
        refine congrArg some ?_
        have : s.ID = "end" := congrArg Prod.fst hps
        simp [hf, this]
    · rw [modifyAt_map (f := f) (g := Character.ID) (fun c => rfl)]
      exact hcs
    · rw [modifyAt_map (f := f) (g := Character.ID) (fun c => rfl)]
      exact hce

/-- C7: starting from `New()`, every sequence of engine operations — generated
inserts, integrate-inserts of generated operations (whose minted identities
are never the sentinel identities), generated deletes and integrate-deletes —
preserves that the first character is the invisible start sentinel, the last
character is the invisible end sentinel, and each sentinel identity occurs
exactly once; in particular neither sentinel ever changes visibility. -/
theorem sentinel_invariant (doc : Document) (h : Reachable New doc) :
    sentinelInv doc := by
  induction h with
  | refl => exact ⟨rfl, rfl, rfl, rfl⟩
  | tail hsteps hstep ih =>
    cases hstep with
    | genInsert site clock pos v =>
      unfold GenerateInsert
      simp only
      split
      all_goals split
      all_goals
        exact iiF_sentinelInv _ _ _ _ _ (genID_ne_start site (clock + 1))
          (genID_ne_end site (clock + 1)) ih
    | intInsert c p n h1 h2 => exact iiF_sentinelInv _ _ _ _ _ h1 h2 ih
    | genDelete pos => exact integrateDelete_sentinelInv _ _ ih
    | intDelete c => exact integrateDelete_sentinelInv _ _ ih

/-- Witness for C7: one generated insert away from the fresh document the
invariant holds. -/
theorem sentinel_invariant_witness :
    sentinelInv (GenerateInsert New 1 0 1 "a").1.1 :=
  sentinel_invariant _ (Relation.ReflTransGen.single (Step.genInsert New 1 0 1 "a"))

/-!  Characterisation of `IthVisible`, decompositions of filters, and the
totality analysis of `GenerateInsert`. -/

theorem ithVisAux_spec (l : List Character) (position : Int) (count : Int) :
    ithVisAux position l count =
      if 0 ≤ position - 1 - count ∧
          (position - 1 - count).toNat < (l.filter (fun c => c.Visible)).length then
        (l.filter (fun c => c.Visible)).getD (position - 1 - count).toNat nullChar
      else nullChar := by
  induction l generalizing count with
  | nil => simp [ithVisAux]
  | cons c rest ih =>
    by_cases hv : c.Visible
    · simp only [ithVisAux, if_pos hv, List.filter_cons_of_pos hv]
      by_cases hceq : count = position - 1
      · rw [if_pos hceq]
        have h0 : position - 1 - count = 0 := by omega
        rw [h0]
        simp
      · rw [if_neg hceq, ih (count + 1)]
        have harith : position - 1 - (count + 1) = position - 1 - count - 1 := by ring
        rw [harith]
        by_cases hlt : 1 ≤ position - 1 - count
        · have h2 : (position - 1 - count - 1).toNat + 1 = (position - 1 - count).toNat := by
            omega
          by_cases h3 : (position - 1 - count - 1).toNat <
              (rest.filter (fun c => c.Visible)).length
          · have hcondL : 0 ≤ position - 1 - count - 1 ∧ (position - 1 - count - 1).toNat <
                (rest.filter (fun c => c.Visible)).length := ⟨by omega, h3⟩
            have hcondR : 0 ≤ position - 1 - count ∧ (position - 1 - count).toNat <
                (c :: rest.filter (fun c => c.Visible)).length :=
              ⟨by omega, by simp only [List.length_cons]; omega⟩
            rw [if_pos hcondL, if_pos hcondR, ← h2]
            simp
          · have hn1 : ¬(0 ≤ position - 1 - count - 1 ∧ (position - 1 - count - 1).toNat <
                (rest.filter (fun c => c.Visible)).length) := fun h => h3 h.2
            have hn2 : ¬(0 ≤ position - 1 - count ∧ (position - 1 - count).toNat <
                (c :: rest.filter (fun c => c.Visible)).length) := by
              rintro ⟨-, hh⟩
              simp only [List.length_cons] at hh
              omega
            rw [if_neg hn1, if_neg hn2]
        · have hn1 : ¬(0 ≤ position - 1 - count - 1 ∧ (position - 1 - count - 1).toNat <
              (rest.filter (fun c => c.Visible)).length) := by
            rintro ⟨hh, -⟩
            omega
          have hn2 : ¬(0 ≤ position - 1 - count ∧ (position - 1 - count).toNat <
              (c :: rest.filter (fun c => c.Visible)).length) := by
            rintro ⟨hh, -⟩
            omega
          rw [if_neg hn1, if_neg hn2]
    · simp only [ithVisAux, if_neg hv, List.filter_cons_of_neg hv]
      exact ih count

theorem filter_getD_decomp (p : Character → Bool) (l : List Character) (j : Nat)
    (hj : j < (l.filter p).length) :
    ∃ l₁ l₂, l = l₁ ++ (l.filter p).getD j nullChar :: l₂ ∧ (l₁.filter p).length = j := by
  induction l generalizing j with
  | nil => simp at hj
  | cons c rest ih =>
    by_cases hv : p c
    · rw [List.filter_cons_of_pos hv] at hj ⊢
      cases j with
      | zero => exact ⟨[], rest, by simp, rfl⟩
      | succ j' =>
        obtain ⟨l₁, l₂, hdec, hlen⟩ := ih j' (by simpa using hj)
        refine ⟨c :: l₁, l₂, ?_, ?_⟩
        · rw [List.getD_cons_succ]
          exact congrArg (c :: ·) hdec
        · rw [List.filter_cons_of_pos hv, List.length_cons, hlen]
    · rw [List.filter_cons_of_neg hv] at hj ⊢
      obtain ⟨l₁, l₂, hdec, hlen⟩ := ih j hj
      exact ⟨c :: l₁, l₂, congrArg (c :: ·) hdec, by rw [List.filter_cons_of_neg hv, hlen]⟩

theorem filter_getD_mem (p : Character → Bool) (l : List Character) (j : Nat)
    (hj : j < (l.filter p).length) : ((l.filter p).getD j nullChar) ∈ l.filter p := by
  rw [List.getD_eq_getElem _ _ hj]
  exact List.getElem_mem ..

theorem filter_getD_pair (p : Character → Bool) (l : List Character) (j : Nat)
    (hj : j + 1 < (l.filter p).length) :
    ∃ l₁ l₂ l₃, l = l₁ ++ (l.filter p).getD j nullChar :: l₂ ++
      (l.filter p).getD (j + 1) nullChar :: l₃ := by
  induction l generalizing j with
  | nil => simp at hj
  | cons c rest ih =>
    by_cases hv : p c
    · rw [List.filter_cons_of_pos hv] at hj ⊢
      cases j with
      | zero =>
        rw [List.getD_cons_zero, List.getD_cons_succ]
        have h0 : 0 < (rest.filter p).length := by simpa using hj
        obtain ⟨l₁, l₂, hdec, -⟩ := filter_getD_decomp p rest 0 h0
        exact ⟨[], l₁, l₂, by simpa using hdec⟩
      | succ j' =>
        rw [List.getD_cons_succ, List.getD_cons_succ]
        obtain ⟨l₁, l₂, l₃, hdec⟩ := ih j' (by simpa using hj)
        exact ⟨c :: l₁, l₂, l₃, congrArg (c :: ·) hdec⟩
    · rw [List.filter_cons_of_neg hv] at hj ⊢
      obtain ⟨l₁, l₂, l₃, hdec⟩ := ih j hj
      exact ⟨c :: l₁, l₂, l₃, congrArg (c :: ·) hdec⟩

theorem scanAux_ge (cid : String) (l : List Character) (i : Nat) : i ≤ scanAux cid l i := by
  induction l generalizing i with
  | nil => simp [scanAux]
  | cons a rest ih =>
    cases rest with
    | nil => simp [scanAux]
    | cons b rest' =>
      simp only [scanAux]
      split
      · exact Nat.le_trans (Nat.le_succ i) (ih (i + 1))
      · exact Nat.le_refl i

theorem scanAux_le (cid : String) (l : List Character) (i : Nat) :
    scanAux cid l i ≤ i + (l.length - 1) := by
  induction l generalizing i with
  | nil => simp [scanAux]
  | cons a rest ih =>
    cases rest with
    | nil => simp [scanAux]
    | cons b rest' =>
      simp only [scanAux]
      split
      · refine Nat.le_trans (ih (i + 1)) ?_
        simp only [List.length_cons]
        omega
      · omega

theorem getD_pair_decomp (l : List Character) (i : Nat) (h1 : 1 ≤ i) (h2 : i < l.length) :
    ∃ m₁ m₂, l = m₁ ++ l.getD (i - 1) nullChar :: l.getD i nullChar :: m₂ ∧
      m₁.length = i - 1 := by
  induction l generalizing i with
  | nil => simp at h2
  | cons c rest ih =>
    cases i with
    | zero => omega
    | succ i' =>
      cases i' with
      | zero =>
        cases rest with
        | nil => simp at h2
        | cons d rest' => exact ⟨[], rest', by simp, rfl⟩
      | succ i'' =>
        obtain ⟨m₁, m₂, hdec, hlen⟩ := ih (i'' + 1) (by omega) (by
          simp only [List.length_cons] at h2; omega)
        refine ⟨c :: m₁, m₂, ?_, ?_⟩
        · have e1 : i'' + 1 + 1 - 1 = (i'' + 1 - 1) + 1 := by omega
          rw [e1, List.getD_cons_succ, List.getD_cons_succ]
          exact congrArg (c :: ·) hdec
        · simp only [List.length_cons, hlen]
          omega

/-- `Subsequence` between two characters of a document with pairwise-distinct
identities is exactly the (possibly empty) run of characters between them. -/
theorem subsequence_decomp (l₁ l₂ l₃ : List Character) (X Y P N : Character)
    (hnd : ((l₁ ++ X :: (l₂ ++ Y :: l₃)).map Character.ID).Nodup)
    (hP : P.ID = X.ID) (hN : N.ID = Y.ID) :
    Subsequence ⟨l₁ ++ X :: (l₂ ++ Y :: l₃)⟩ P N = (l₂, none) ∧
    Position ⟨l₁ ++ X :: (l₂ ++ Y :: l₃)⟩ N.ID = (l₁.length : Int) + l₂.length + 2 := by
  have hfactsX := nodup_decomp_facts l₁ (l₂ ++ Y :: l₃) X hnd
  have hndY : (((l₁ ++ X :: l₂) ++ Y :: l₃).map Character.ID).Nodup := by
    simpa [List.append_assoc] using hnd
  have hfactsY := nodup_decomp_facts (l₁ ++ X :: l₂) l₃ Y hndY
  have hposX : Position ⟨l₁ ++ X :: (l₂ ++ Y :: l₃)⟩ X.ID = (l₁.length : Int) + 1 :=
    position_decomp hfactsX.1
  have hposY : Position ⟨l₁ ++ X :: (l₂ ++ Y :: l₃)⟩ Y.ID =
      (l₁.length : Int) + l₂.length + 2 := by
    have h := posAux_append_first Y.ID (l₁ ++ X :: l₂) l₃ Y hfactsY.1 rfl 0
    rw [Position, show l₁ ++ X :: (l₂ ++ Y :: l₃) = (l₁ ++ X :: l₂) ++ Y :: l₃ by simp, h]
    push_cast [List.length_append, List.length_cons]
    ring
  have hNpos : Position ⟨l₁ ++ X :: (l₂ ++ Y :: l₃)⟩ N.ID =
      (l₁.length : Int) + l₂.length + 2 := by rw [hN, hposY]
  refine ⟨?_, hNpos⟩
  unfold Subsequence
  rw [hP, hN, hposX, hposY]
  have hc1 : ¬((l₁.length : Int) + 1 = -1 ∨ (l₁.length : Int) + l₂.length + 2 = -1) := by
    omega
  have hc2 : ¬((l₁.length : Int) + 1 > (l₁.length : Int) + l₂.length + 2) := by omega
  have hc3 : ¬((l₁.length : Int) + 1 = (l₁.length : Int) + l₂.length + 2) := by omega
  rw [if_neg hc1, if_neg hc2, if_neg hc3]
  have e1 : ((l₁.length : Int) + 1).toNat = l₁.length + 1 := by omega
  have e2 : ((l₁.length : Int) + l₂.length + 2 - 1).toNat - (l₁.length + 1) =
      l₂.length := by omega
  rw [e1, e2]
  have hdrop : (l₁ ++ X :: (l₂ ++ Y :: l₃)).drop (l₁.length + 1) = l₂ ++ Y :: l₃ := by
    rw [show l₁ ++ X :: (l₂ ++ Y :: l₃) = (l₁ ++ [X]) ++ (l₂ ++ Y :: l₃) by simp]
    exact List.drop_left' (by simp)
  rw [hdrop, List.take_left' rfl]

/-- On a document with pairwise-distinct identities, `IntegrateInsert` between
two characters present in order never fails, given fuel at least two: either
the window is empty or a singleton (direct local insert), or the scan narrows
to an adjacent pair and the recursive call inserts there. -/
theorem iiF_err_none (fuel : Nat) (doc : Document) (char X Y P N : Character)
    (l₁ l₂ l₃ : List Character) (hdec : doc.Characters = l₁ ++ X :: (l₂ ++ Y :: l₃))
    (hnd : (doc.Characters.map Character.ID).Nodup) (hid : char.ID ≠ "")
    (hP : P.ID = X.ID) (hN : N.ID = Y.ID) :
    (integrateInsertF (fuel + 2) doc char P N).2 = none := by
  match l₂ with
  | [] =>
    rw [iiF_adjacent (fuel + 1) doc char X Y P N l₁ l₃ (by simpa using hdec) hnd hid hP hN]
  | [M] =>
    rw [iiF_single (fuel + 1) doc char X M Y P N l₁ l₃ (by simpa using hdec) hnd hid hP hN]
  | M₁ :: M₂ :: rest =>
    obtain ⟨cs⟩ := doc
    simp only at hdec
    subst hdec
    set l₂ := M₁ :: M₂ :: rest with hl₂
    have hsub := (subsequence_decomp l₁ l₂ l₃ X Y P N hnd hP hN).1
    have hlen2 : 2 ≤ l₂.length := by simp [hl₂]
    rw [show fuel + 2 = (fuel + 1) + 1 by ring, integrateInsertF, hsub]
    simp only
    have hno0 : ¬(l₂.length = 0) := by omega
    have hno1 : ¬(l₂.length = 1) := by omega
    rw [if_neg hno0, if_neg hno1]
    set i := scanAux char.ID (l₂.drop 1) 1 with hi
    have hge : 1 ≤ i := scanAux_ge ..
    have hle : i ≤ l₂.length - 1 := by
      have := scanAux_le char.ID (l₂.drop 1) 1
      rw [List.length_drop] at this
      omega
    obtain ⟨m₁, m₂, hdec2, hm₁⟩ := getD_pair_decomp l₂ i hge (by omega)
    have hfull : l₁ ++ X :: (l₂ ++ Y :: l₃) =
        (l₁ ++ X :: m₁) ++ (l₂.getD (i - 1) nullChar) :: (l₂.getD i nullChar) ::
          (m₂ ++ Y :: l₃) := by
      conv_lhs => rw [hdec2]
      simp
    have hres := iiF_adjacent fuel ⟨l₁ ++ X :: (l₂ ++ Y :: l₃)⟩ char
      (l₂.getD (i - 1) nullChar) (l₂.getD i nullChar)
      (l₂.getD (i - 1) nullChar) (l₂.getD i nullChar)
      (l₁ ++ X :: m₁) (m₂ ++ Y :: l₃) hfull hnd hid rfl rfl
    rw [hres]

/-- C10 amended: on a well-formed document — first character the invisible
start sentinel, last character the invisible end sentinel, all identities
pairwise distinct — `GenerateInsert` returns successfully for every integer
position and every value: missing visible neighbours fall back to the
sentinels and the insertion position is always in bounds. -/
theorem generateInsert_total (doc : Document) (s e : Character) (mid : List Character)
    (hdoc : doc.Characters = s :: mid ++ [e])
    (hs : s.ID = "start") (hsv : s.Visible = false)
    (he : e.ID = "end") (hev : e.Visible = false)
    (hnd : (doc.Characters.map Character.ID).Nodup)
    (site clk : Nat) (pos : Int) (v : String) :
    (GenerateInsert doc site clk pos v).1.2 = none := by
  obtain ⟨cs⟩ := doc
  simp only at hdoc
  subst hdoc
  have hid : natToDec site ++ natToDec (clk + 1) ≠ "" := genID_ne_empty site (clk + 1)
  have hvis : (s :: mid ++ [e]).filter (fun c => c.Visible) =
      mid.filter (fun c => c.Visible) := by
    simp [hsv, hev]
  set vis := mid.filter (fun c => c.Visible) with hvisdef
  set n := vis.length with hn
  have hIth : ∀ k : Int, IthVisible ⟨s :: mid ++ [e]⟩ k =
      if 0 ≤ k - 1 ∧ (k - 1).toNat < n then vis.getD (k - 1).toNat nullChar
      else nullChar := by
    intro k
    rw [IthVisible, ithVisAux_spec]
    simp only [hvis, sub_zero]
  have hfind_start : Find ⟨s :: mid ++ [e]⟩ "start" = s := by
    show findAux "start" (s :: (mid ++ [e])) = s
    rw [show findAux "start" (s :: (mid ++ [e])) =
      if s.ID = "start" then s else findAux "start" (mid ++ [e]) from rfl, if_pos hs]
  have hfind_end : Find ⟨s :: mid ++ [e]⟩ "end" = e := by
    have hnd' : (((s :: mid) ++ e :: []).map Character.ID).Nodup := by simpa using hnd
    have hfacts := nodup_decomp_facts (s :: mid) ([] : List Character) e hnd'
    show findAux "end" (s :: (mid ++ [e])) = e
    rw [show s :: (mid ++ [e]) = (s :: mid) ++ e :: [] by simp]
    exact findAux_decomp (fun c hc => he ▸ hfacts.1 c hc) he
  have hGI : GenerateInsert ⟨s :: mid ++ [e]⟩ site clk pos v =
      ((IntegrateInsert ⟨s :: mid ++ [e]⟩
        ⟨natToDec site ++ natToDec (clk + 1), true, v,
          (if (IthVisible ⟨s :: mid ++ [e]⟩ (pos - 1)).ID = "-1" then
            Find ⟨s :: mid ++ [e]⟩ "start" else IthVisible ⟨s :: mid ++ [e]⟩ (pos - 1)).ID,
          (if (IthVisible ⟨s :: mid ++ [e]⟩ pos).ID = "-1" then
            Find ⟨s :: mid ++ [e]⟩ "end" else IthVisible ⟨s :: mid ++ [e]⟩ pos).ID⟩
        (if (IthVisible ⟨s :: mid ++ [e]⟩ (pos - 1)).ID = "-1" then
          Find ⟨s :: mid ++ [e]⟩ "start" else IthVisible ⟨s :: mid ++ [e]⟩ (pos - 1))
        (if (IthVisible ⟨s :: mid ++ [e]⟩ pos).ID = "-1" then
          Find ⟨s :: mid ++ [e]⟩ "end" else IthVisible ⟨s :: mid ++ [e]⟩ pos)), clk + 1) := rfl
  rw [hGI]
  simp only
  have hlen : (s :: mid ++ [e]).length + 2 = (mid.length + 2) + 2 := by simp
  unfold IntegrateInsert
  simp only [hlen]
  set pSel := (if (IthVisible ⟨s :: mid ++ [e]⟩ (pos - 1)).ID = "-1" then
    Find ⟨s :: mid ++ [e]⟩ "start" else IthVisible ⟨s :: mid ++ [e]⟩ (pos - 1)) with hpSel
  set nSel := (if (IthVisible ⟨s :: mid ++ [e]⟩ pos).ID = "-1" then
    Find ⟨s :: mid ++ [e]⟩ "end" else IthVisible ⟨s :: mid ++ [e]⟩ pos) with hnSel
  have hprev : pSel = s ∨ ((0 ≤ pos - 1 - 1 ∧ (pos - 1 - 1).toNat < n) ∧
      pSel = vis.getD (pos - 1 - 1).toNat nullChar) := by
    rw [hpSel, hIth (pos - 1)]
    by_cases h1 : 0 ≤ pos - 1 - 1 ∧ (pos - 1 - 1).toNat < n
    · rw [if_pos h1]
      by_cases hPid : (vis.getD (pos - 1 - 1).toNat nullChar).ID = "-1"
      · rw [if_pos hPid, hfind_start]
        exact Or.inl rfl
      · rw [if_neg hPid]
        exact Or.inr ⟨h1, rfl⟩
    · rw [if_neg h1, if_pos (show nullChar.ID = "-1" from rfl), hfind_start]
      exact Or.inl rfl
  have hnext : nSel = e ∨ ((0 ≤ pos - 1 ∧ (pos - 1).toNat < n) ∧
      nSel = vis.getD (pos - 1).toNat nullChar) := by
    rw [hnSel, hIth pos]
    by_cases h2 : 0 ≤ pos - 1 ∧ (pos - 1).toNat < n
    · rw [if_pos h2]
      by_cases hNid : (vis.getD (pos - 1).toNat nullChar).ID = "-1"
      · rw [if_pos hNid, hfind_end]
        exact Or.inl rfl
      · rw [if_neg hNid]
        exact Or.inr ⟨h2, rfl⟩
    · rw [if_neg h2, if_pos (show nullChar.ID = "-1" from rfl), hfind_end]
      exact Or.inl rfl
  rcases hprev with hp | ⟨hA, hp⟩ <;> rcases hnext with hq | ⟨hB, hq⟩
  · -- prev = s, next = e
    rw [hp, hq]
    exact iiF_err_none (mid.length + 2) _ _ s e s e [] mid [] (by simp) hnd hid rfl rfl
  · -- prev = s, next = vis element
    obtain ⟨m₁, m₂, hm, -⟩ :=
      filter_getD_decomp (fun c => c.Visible) mid (pos - 1).toNat hB.2
    rw [hp, hq]
    exact iiF_err_none (mid.length + 2) _ _ s (vis.getD (pos - 1).toNat nullChar) s _
      [] m₁ (m₂ ++ [e]) (by
        conv_lhs => rw [show (⟨s :: mid ++ [e]⟩ : Document).Characters =
          s :: mid ++ [e] from rfl, hm]
        simp [hvisdef]) hnd hid rfl rfl
  · -- prev = vis element, next = e
    obtain ⟨m₁, m₂, hm, -⟩ :=
      filter_getD_decomp (fun c => c.Visible) mid (pos - 1 - 1).toNat hA.2
    rw [hp, hq]
    exact iiF_err_none (mid.length + 2) _ _ (vis.getD (pos - 1 - 1).toNat nullChar) e _ e
      (s :: m₁) m₂ [] (by
        conv_lhs => rw [show (⟨s :: mid ++ [e]⟩ : Document).Characters =
          s :: mid ++ [e] from rfl, hm]
        simp [hvisdef]) hnd hid rfl rfl
  · -- both vis elements at consecutive visible indices
    have hjj : (pos - 1).toNat = (pos - 1 - 1).toNat + 1 := by
      obtain ⟨hA1, -⟩ := hA
      omega
    have hpair := filter_getD_pair (fun c => c.Visible) mid (pos - 1 - 1).toNat
      (by rw [← hjj]; exact hB.2)
    obtain ⟨m₁, m₂, m₃, hm⟩ := hpair
    rw [hp, hq, hjj]
    exact iiF_err_none (mid.length + 2) _ _ (vis.getD (pos - 1 - 1).toNat nullChar)
      (vis.getD ((pos - 1 - 1).toNat + 1) nullChar) _ _
      (s :: m₁) m₂ (m₃ ++ [e]) (by
        conv_lhs => rw [show (⟨s :: mid ++ [e]⟩ : Document).Characters =
          s :: mid ++ [e] from rfl, hm]
        simp [hvisdef]) hnd hid rfl rfl

/-- Witness for C10 amended: on the fresh document any far-out position still
succeeds. -/
theorem generateInsert_total_witness :
    (GenerateInsert New 0 0 5 "x").1.2 = none :=
  generateInsert_total New StartChar EndChar [] rfl rfl rfl rfl rfl (by decide) 0 0 5 "x"

/-!  Decimal valuation: `natToDec` is injective, so minted identities with a
fixed site and distinct clocks are distinct. -/

theorem digitChar_val {m : Nat} (h : m < 10) : (Nat.digitChar m).toNat - 48 = m := by
  interval_cases m <;> decide

theorem decAux_val : ∀ (fuel n : Nat), n < 10 ^ fuel →
    (decAux fuel n).foldl (fun a c => a * 10 + (c.toNat - 48)) 0 = n := by
  intro fuel
  induction fuel with
  | zero =>
    intro n hn
    interval_cases n
    rfl
  | succ f ih =>
    intro n hn
    unfold decAux
    by_cases h10 : n < 10
    · rw [if_pos h10]
      simp [digitChar_val h10]
    · rw [if_neg h10, List.foldl_append]
      simp only [List.foldl_cons, List.foldl_nil]
      have hdiv : n / 10 < 10 ^ f := by
        rw [Nat.div_lt_iff_lt_mul (by norm_num)]
        rw [pow_succ] at hn
        omega
      rw [ih (n / 10) hdiv, digitChar_val (Nat.mod_lt _ (by omega))]
      omega

theorem natToDec_inj {m n : Nat} (h : natToDec m = natToDec n) : m = n := by
  have hd : decAux (m + 1) m = decAux (n + 1) n := congrArg String.data h
  have hm := decAux_val (m + 1) m (Nat.lt_of_lt_of_le (Nat.lt_pow_self (by norm_num) m)
    (Nat.pow_le_pow_right (by norm_num) (Nat.le_succ m)))
  have hn := decAux_val (n + 1) n (Nat.lt_of_lt_of_le (Nat.lt_pow_self (by norm_num) n)
    (Nat.pow_le_pow_right (by norm_num) (Nat.le_succ n)))
  rw [← hm, ← hn, hd]

theorem genID_inj {s a b : Nat} (h : natToDec s ++ natToDec a = natToDec s ++ natToDec b) :
    a = b := by
  have hd := congrArg String.data h
  rw [String.data_append, String.data_append] at hd
  have : (natToDec a).data = (natToDec b).data := List.append_cancel_left hd
  exact natToDec_inj (String.ext this)

theorem genID_ne_neg1 (a b : Nat) : natToDec a ++ natToDec b ≠ "-1" := by
  refine genID_ne a b "-1" ?_
  intro c cs h
  rw [show ("-1" : String).data = ['-', '1'] from rfl] at h
  cases h
  decide

/-!  Splitting on newlines and joining back. -/

/-- Joining the pieces of a newline split back together (inverse of
`splitNl`). -/
def joinNl : List (List Char) → List Char
  | [] => []
  | [l] => l
  | l :: l' :: ls => l ++ '\n' :: joinNl (l' :: ls)

theorem splitNl_ne_nil (t : List Char) : splitNl t ≠ [] := by
  cases t with
  | nil => simp [splitNl]
  | cons c rest =>
    unfold splitNl
    split
    · simp
    · cases h : splitNl rest <;> simp

theorem splitNl_join (t : List Char) : joinNl (splitNl t) = t := by
  induction t with
  | nil => rfl
  | cons c rest ih =>
    unfold splitNl
    by_cases hc : c = '\n'
    · rw [if_pos hc, hc]
      cases h : splitNl rest with
      | nil => exact absurd h (splitNl_ne_nil rest)
      | cons l ls =>
        rw [joinNl]
        rw [h] at ih
        simp [ih]
    · rw [if_neg hc]
      cases h : splitNl rest with
      | nil => exact absurd h (splitNl_ne_nil rest)
      | cons l ls =>
        rw [h] at ih
        cases ls with
        | nil =>
          simp only [joinNl] at ih ⊢
          simp [ih]
        | cons l' ls' =>
          simp only [joinNl] at ih ⊢
          simp [ih]

/-!  The content of a document at the character-data level. -/

theorem content_foldl_data (l : List Character) (acc : String) :
    (l.foldl (fun v c => if c.Visible then v ++ c.Value else v) acc).data =
      acc.data ++ (l.map fun c => if c.Visible then c.Value.data else []).flatten := by
  induction l generalizing acc with
  | nil => simp
  | cons c rest ih =>
    simp only [List.foldl_cons, ih, List.map_cons, List.flatten_cons]
    by_cases hv : c.Visible
    · rw [if_pos hv, if_pos hv, String.data_append]
      simp
    · rw [if_neg hv, if_neg hv]
      simp

theorem content_data (l : List Character) :
    (Content ⟨l⟩).data = (l.map fun c => if c.Visible then c.Value.data else []).flatten := by
  rw [Content]
  simpa using content_foldl_data l ""

theorem flatten_map_singleton (l : List Char) :
    (List.map String.data (l.map fun ch => String.singleton ch)).flatten = l := by
  induction l with
  | nil => rfl
  | cons c rest ih =>
    rw [List.map_cons, List.map_cons, List.flatten_cons, ih,
      show (String.singleton c).data = [c] from rfl]
    rfl

/-- The sequence of values inserted by `Load` over the split lines: each line
contributes one singleton string per byte (the byte value re-read as a code
point), newline values in between. -/
def joinVals : List (List Char) → List String
  | [] => []
  | [l] => (lineBytes l).map fun b => String.singleton (Char.ofNat b)
  | l :: l' :: ls =>
    ((lineBytes l).map fun b => String.singleton (Char.ofNat b)) ++ "\n" :: joinVals (l' :: ls)

/-- On a line of single-byte (ASCII) characters, replaying the bytes as code
points reproduces the line's characters. -/
theorem lineBytes_ascii : ∀ l : List Char, (∀ c ∈ l, c.toNat < 128) →
    ((lineBytes l).map fun b => String.singleton (Char.ofNat b)) =
      l.map fun ch => String.singleton ch := by
  intro l
  induction l with
  | nil => intro h; rfl
  | cons c rest ih =>
    intro h
    have hc : c.toNat < 128 := h c (by simp)
    have hcons : lineBytes (c :: rest) = utf8Bytes c ++ lineBytes rest := by
      simp [lineBytes]
    have hu : (utf8Bytes c).map (fun b => String.singleton (Char.ofNat b)) =
        [String.singleton c] := by
      rw [utf8Bytes, if_pos hc]
      simp only [List.map_cons, List.map_nil, Char.ofNat_toNat]
    rw [hcons, List.map_append, hu, ih (fun x hx => h x (by simp [hx])), List.map_cons]
    rfl

/-- Every character of a piece of the newline split is a character of the
original text. -/
theorem splitNl_mem : ∀ t : List Char, ∀ l ∈ splitNl t, ∀ c ∈ l, c ∈ t := by
  intro t
  induction t with
  | nil =>
    intro l hl c hc
    rw [show splitNl [] = [[]] from rfl, List.mem_singleton] at hl
    subst hl
    simp at hc
  | cons a rest ih =>
    intro l hl c hc
    unfold splitNl at hl
    by_cases ha : a = '\n'
    · rw [if_pos ha] at hl
      rcases List.mem_cons.mp hl with hl | hl
      · subst hl; simp at hc
      · exact List.mem_cons_of_mem a (ih l hl c hc)
    · rw [if_neg ha] at hl
      cases hsp : splitNl rest with
      | nil => exact absurd hsp (splitNl_ne_nil rest)
      | cons l0 ls =>
        rw [hsp] at hl
        rcases List.mem_cons.mp hl with hl | hl
        · subst hl
          rcases List.mem_cons.mp hc with hc | hc
          · simp [hc]
          · exact List.mem_cons_of_mem a (ih l0 (by rw [hsp]; exact List.mem_cons_self l0 ls) c hc)
        · exact List.mem_cons_of_mem a (ih l (by rw [hsp]; exact List.mem_cons_of_mem l0 hl) c hc)

theorem joinVals_flatten : ∀ ls : List (List Char), (∀ l ∈ ls, ∀ c ∈ l, c.toNat < 128) →
    ((joinVals ls).map String.data).flatten = joinNl ls := by
  intro ls
  match ls with
  | [] => intro h; rfl
  | [l] =>
    intro h
    simp only [joinVals, joinNl]
    rw [lineBytes_ascii l (h l (by simp))]
    exact flatten_map_singleton l
  | l :: l' :: ls' =>
    intro h
    simp only [joinVals, joinNl, List.map_append, List.map_cons, List.flatten_append,
      List.flatten_cons]
    rw [lineBytes_ascii l (h l (by simp)), flatten_map_singleton l,
      joinVals_flatten (l' :: ls') (fun l2 hl2 => h l2 (by simp [hl2]))]
    rfl

/-!  The neighbour selection of `GenerateInsert`, named for reuse. -/

/-- The `charPrev` selected by `GenerateInsert` after the sentinel default. -/
def prevSelect (doc : Document) (position : Int) : Character :=
  if (IthVisible doc (position - 1)).ID = "-1" then Find doc "start"
  else IthVisible doc (position - 1)

/-- The `charNext` selected by `GenerateInsert` after the sentinel default. -/
def nextSelect (doc : Document) (position : Int) : Character :=
  if (IthVisible doc position).ID = "-1" then Find doc "end"
  else IthVisible doc position

theorem generateInsert_unfold (doc : Document) (site clk : Nat) (pos : Int) (v : String) :
    GenerateInsert doc site clk pos v =
      ((IntegrateInsert doc
        ⟨natToDec site ++ natToDec (clk + 1), true, v, (prevSelect doc pos).ID,
          (nextSelect doc pos).ID⟩
        (prevSelect doc pos) (nextSelect doc pos)), clk + 1) := rfl

theorem getD_concat (l : List Character) (a : Character) :
    (l ++ [a]).getD l.length nullChar = a := by
  rw [List.getD_eq_getElem _ _ (by simp)]
  exact List.getElem_concat_length l a l.length rfl (by simp)

theorem find_start_cons (s' : Character) (rest : List Character) (hs : s'.ID = "start") :
    Find ⟨s' :: rest⟩ "start" = s' := by
  show findAux "start" (s' :: rest) = s'
  rw [show findAux "start" (s' :: rest) =
    if s'.ID = "start" then s' else findAux "start" rest from rfl, if_pos hs]

theorem find_end_decomp (pre : List Character) (e' : Character) (suf : List Character)
    (he : e'.ID = "end") (hpre : ∀ c ∈ pre, c.ID ≠ "end") :
    Find ⟨pre ++ e' :: suf⟩ "end" = e' :=
  findAux_decomp hpre he

/-!  The invariant of the `Load` replay. -/

/-- The state shape maintained while `Load` replays a text: no error so far,
the document is the two sentinels around `mid`, every `mid` character is
visible and carries an identity minted from `site` and some clock in
`(clk0, st.clock]`, identities are pairwise distinct, and the next insert
position is just past the visible characters. -/
def loadSt_shape (site clk0 : Nat) (st : LoadSt) (mid : List Character) : Prop :=
  st.err = none ∧ clk0 ≤ st.clock ∧
  (∃ s' e', st.doc.Characters = s' :: mid ++ [e'] ∧ s'.ID = "start" ∧ s'.Visible = false ∧
    e'.ID = "end" ∧ e'.Visible = false) ∧
  (∀ c ∈ mid, (∃ j, clk0 < j ∧ j ≤ st.clock ∧ c.ID = natToDec site ++ natToDec j) ∧
    c.Visible = true) ∧
  (st.doc.Characters.map Character.ID).Nodup ∧
  st.pos = (mid.length : Int) + 1

theorem insertStep_shape (site clk0 : Nat) (st : LoadSt) (mid : List Character) (v : String)
    (h : loadSt_shape site clk0 st mid) :
    ∃ mid', loadSt_shape site clk0 (insertStep site st v) mid' ∧
      mid'.map Character.Value = mid.map Character.Value ++ [v] := by
  obtain ⟨herr, hclk, ⟨s', e', hdoc, hs, hsv, he, hev⟩, hmem, hnd, hpos⟩ := h
  obtain ⟨d, p, ck, er⟩ := st
  simp only at herr hclk hdoc hmem hnd hpos ⊢
  subst herr
  obtain ⟨cs⟩ := d
  simp only at hdoc hnd
  subst hdoc
  subst hpos
  have hvis : (s' :: mid ++ [e']).filter (fun c => c.Visible) = mid := by
    simp [hsv, hev, List.filter_eq_self.mpr (fun c hc => (hmem c hc).2)]
  have hid : natToDec site ++ natToDec (ck + 1) ≠ "" := genID_ne_empty site (ck + 1)
  have hend_pre : ∀ c ∈ s' :: mid, c.ID ≠ "end" := by
    intro c hc
    rcases List.mem_cons.mp hc with hc | hc
    · rw [hc, hs]; decide
    · obtain ⟨⟨j, -, -, hj⟩, -⟩ := hmem c hc
      rw [hj]; exact genID_ne_end site j
  have hnext : nextSelect ⟨s' :: mid ++ [e']⟩ ((mid.length : Int) + 1) = e' := by
    unfold nextSelect
    rw [IthVisible, ithVisAux_spec]
    simp only [hvis, sub_zero]
    have hc : ¬(0 ≤ (mid.length : Int) + 1 - 1 ∧
        ((mid.length : Int) + 1 - 1).toNat < mid.length) := by
      rintro ⟨-, hh⟩
      omega
    rw [if_neg hc, if_pos (show nullChar.ID = "-1" from rfl)]
    exact find_end_decomp (s' :: mid) e' [] he hend_pre
  have hcidfresh : ∀ c ∈ mid, c.ID ≠ natToDec site ++ natToDec (ck + 1) := by
    intro c hc heq
    obtain ⟨⟨j, hj1, hj2, hj⟩, -⟩ := hmem c hc
    rw [hj] at heq
    have := genID_inj heq
    omega
  rcases List.eq_nil_or_concat mid with hmid | ⟨m, P, hmid⟩
  · -- mid is empty: insert between the sentinels
    subst hmid
    have hprev : prevSelect ⟨s' :: [] ++ [e']⟩ ((([] : List Character).length : Int) + 1) =
        s' := by
      unfold prevSelect
      rw [IthVisible, ithVisAux_spec]
      simp only [hvis, sub_zero]
      have hc : ¬(0 ≤ ((([] : List Character).length : Int) + 1 - 1 - 1) ∧
          ((([] : List Character).length : Int) + 1 - 1 - 1).toNat <
            ([] : List Character).length) := by
        rintro ⟨hh, -⟩
        simp at hh
      rw [if_neg hc, if_pos (show nullChar.ID = "-1" from rfl)]
      exact find_start_cons s' [e'] hs
    have hGen : GenerateInsert ⟨s' :: [] ++ [e']⟩ site ck
        ((([] : List Character).length : Int) + 1) v =
        ((⟨[{ s' with IDNext := natToDec site ++ natToDec (ck + 1) },
            ⟨natToDec site ++ natToDec (ck + 1), true, v, s'.ID, e'.ID⟩,
            { e' with IDPrevious := natToDec site ++ natToDec (ck + 1) }]⟩, none), ck + 1) := by
      rw [generateInsert_unfold, hprev, hnext]
      have hii := iiF_adjacent 3 ⟨s' :: [] ++ [e']⟩
        ⟨natToDec site ++ natToDec (ck + 1), true, v, s'.ID, e'.ID⟩ s' e' s' e' [] []
        rfl hnd hid rfl rfl
      rw [show IntegrateInsert ⟨s' :: [] ++ [e']⟩
        ⟨natToDec site ++ natToDec (ck + 1), true, v, s'.ID, e'.ID⟩ s' e' =
        integrateInsertF (3 + 1) ⟨s' :: [] ++ [e']⟩
        ⟨natToDec site ++ natToDec (ck + 1), true, v, s'.ID, e'.ID⟩ s' e' from rfl, hii]
      simp
    have hstep : insertStep site
        ⟨⟨s' :: [] ++ [e']⟩, (([] : List Character).length : Int) + 1, ck, none⟩ v =
        ⟨⟨[{ s' with IDNext := natToDec site ++ natToDec (ck + 1) },
          ⟨natToDec site ++ natToDec (ck + 1), true, v, s'.ID, e'.ID⟩,
          { e' with IDPrevious := natToDec site ++ natToDec (ck + 1) }]⟩,
          (([] : List Character).length : Int) + 1 + 1, ck + 1, none⟩ := by
      rw [insertStep]
      rw [hGen]
    refine ⟨[⟨natToDec site ++ natToDec (ck + 1), true, v, s'.ID, e'.ID⟩], ?_, by simp⟩
    rw [hstep]
    refine ⟨rfl, show clk0 ≤ ck + 1 from by omega,
      ⟨{ s' with IDNext := natToDec site ++ natToDec (ck + 1) },
      { e' with IDPrevious := natToDec site ++ natToDec (ck + 1) }, by simp, hs, hsv,
      he, hev⟩, ?_, ?_, show (0 : Int) + 1 + 1 = (1 : Int) + 1 from by norm_num⟩
    · intro c hc
      rw [List.mem_singleton] at hc
      subst hc
      exact ⟨⟨ck + 1, by omega, show ck + 1 ≤ ck + 1 from le_refl _, rfl⟩, rfl⟩
    · show (([{ s' with IDNext := natToDec site ++ natToDec (ck + 1) },
        (⟨natToDec site ++ natToDec (ck + 1), true, v, s'.ID, e'.ID⟩ : Character),
        { e' with IDPrevious := natToDec site ++ natToDec (ck + 1) }] :
          List Character).map Character.ID).Nodup
      simp only [List.map_cons, List.map_nil]
      rw [show ({ s' with IDNext := natToDec site ++ natToDec (ck + 1) } : Character).ID =
        s'.ID from rfl, show ({ e' with IDPrevious := natToDec site ++ natToDec (ck + 1) } :
        Character).ID = e'.ID from rfl, hs, he]
      refine List.nodup_cons.mpr ⟨?_, List.nodup_cons.mpr ⟨?_, by simp⟩⟩
      · simp only [List.mem_cons, List.mem_singleton, List.not_mem_nil, or_false]
        push_neg
        exact ⟨fun hh => genID_ne_start site (ck + 1) hh.symm, by decide⟩
      · simp only [List.mem_cons, List.mem_singleton, List.not_mem_nil, or_false]
        exact genID_ne_end site (ck + 1)
  · -- mid ends in a visible character P: insert between P and the end sentinel
    have hmid' : mid = m ++ [P] := by simpa [List.concat_eq_append] using hmid
    clear hmid
    have hPmem : P ∈ mid := by rw [hmid']; simp
    obtain ⟨⟨jP, hjP1, hjP2, hjPid⟩, hPvis⟩ := hmem P hPmem
    have hlenmid : 1 ≤ mid.length := by rw [hmid']; simp
    have hprev : prevSelect ⟨s' :: mid ++ [e']⟩ ((mid.length : Int) + 1) = P := by
      unfold prevSelect
      rw [IthVisible, ithVisAux_spec]
      simp only [hvis, sub_zero]
      have harith : ((mid.length : Int) + 1 - 1 - 1).toNat = m.length := by
        rw [hmid']
        simp only [List.length_append, List.length_cons, List.length_nil]
        omega
      have hcond : 0 ≤ (mid.length : Int) + 1 - 1 - 1 ∧
          ((mid.length : Int) + 1 - 1 - 1).toNat < mid.length := by
        refine ⟨by omega, ?_⟩
        rw [harith, hmid']
        simp
      have hgd : mid.getD (((mid.length : Int) + 1 - 1 - 1)).toNat nullChar = P := by
        rw [harith, hmid']
        exact getD_concat m P
      rw [if_pos hcond, hgd,
        if_neg (show ¬(P.ID = "-1") from by rw [hjPid]; exact genID_ne_neg1 site jP)]
    have hdecomp : (⟨s' :: mid ++ [e']⟩ : Document).Characters =
        (s' :: m) ++ P :: e' :: [] := by
      rw [show (⟨s' :: mid ++ [e']⟩ : Document).Characters = s' :: mid ++ [e'] from rfl,
        hmid']
      simp
    have hGen : GenerateInsert ⟨s' :: mid ++ [e']⟩ site ck ((mid.length : Int) + 1) v =
        ((⟨(s' :: m) ++ { P with IDNext := natToDec site ++ natToDec (ck + 1) } ::
            ⟨natToDec site ++ natToDec (ck + 1), true, v, P.ID, e'.ID⟩ ::
            { e' with IDPrevious := natToDec site ++ natToDec (ck + 1) } :: []⟩, none),
          ck + 1) := by
      rw [generateInsert_unfold, hprev, hnext]
      have hii := iiF_adjacent (mid.length + 3) ⟨s' :: mid ++ [e']⟩
        ⟨natToDec site ++ natToDec (ck + 1), true, v, P.ID, e'.ID⟩ P e' P e'
        (s' :: m) [] hdecomp hnd hid rfl rfl
      rw [show IntegrateInsert ⟨s' :: mid ++ [e']⟩
        ⟨natToDec site ++ natToDec (ck + 1), true, v, P.ID, e'.ID⟩ P e' =
        integrateInsertF ((s' :: mid ++ [e']).length + 2) ⟨s' :: mid ++ [e']⟩
        ⟨natToDec site ++ natToDec (ck + 1), true, v, P.ID, e'.ID⟩ P e' from rfl]
      have hfuel : (s' :: mid ++ [e']).length + 2 = (mid.length + 3) + 1 := by
        simp only [List.length_cons, List.length_append, List.length_nil]
        try omega
      rw [hfuel, hii]
    refine ⟨m ++ [{ P with IDNext := natToDec site ++ natToDec (ck + 1) },
      ⟨natToDec site ++ natToDec (ck + 1), true, v, P.ID, e'.ID⟩], ?_, ?_⟩
    · have hstep : insertStep site ⟨⟨s' :: mid ++ [e']⟩, (mid.length : Int) + 1, ck, none⟩ v =
        ⟨⟨(s' :: m) ++ { P with IDNext := natToDec site ++ natToDec (ck + 1) } ::
            ⟨natToDec site ++ natToDec (ck + 1), true, v, P.ID, e'.ID⟩ ::
            { e' with IDPrevious := natToDec site ++ natToDec (ck + 1) } :: []⟩,
          (mid.length : Int) + 1 + 1, ck + 1, none⟩ := by
        rw [insertStep]
        rw [hGen]
      rw [hstep]
      refine ⟨rfl, show clk0 ≤ ck + 1 from by omega,
        ⟨s', { e' with IDPrevious := natToDec site ++ natToDec (ck + 1) }, by simp, hs,
          hsv, he, hev⟩, ?_, ?_, ?_⟩
      · intro c hc
        simp only [List.mem_append, List.mem_cons, List.mem_singleton,
          List.not_mem_nil, or_false] at hc
        rcases hc with hc | hc | hc
        · obtain ⟨⟨j, hj1, hj2, hj⟩, hcv⟩ := hmem c (by rw [hmid']; simp [hc])
          exact ⟨⟨j, hj1, show j ≤ ck + 1 from by omega, hj⟩, hcv⟩
        · subst hc
          exact ⟨⟨jP, hjP1, show jP ≤ ck + 1 from by omega, hjPid⟩, hPvis⟩
        · subst hc
          exact ⟨⟨ck + 1, by omega, show ck + 1 ≤ ck + 1 from le_refl _, rfl⟩, rfl⟩
      · show ((((s' :: m) ++ { P with IDNext := natToDec site ++ natToDec (ck + 1) } ::
            ⟨natToDec site ++ natToDec (ck + 1), true, v, P.ID, e'.ID⟩ ::
            { e' with IDPrevious := natToDec site ++ natToDec (ck + 1) } :: []) :
              List Character).map Character.ID).Nodup
        have hold : ((s' :: mid ++ [e']).map Character.ID).Nodup := hnd
        rw [hmid'] at hold
        have hnew : (((s' :: m) ++
            ({ P with IDNext := natToDec site ++ natToDec (ck + 1) } : Character) ::
            (⟨natToDec site ++ natToDec (ck + 1), true, v, P.ID, e'.ID⟩ : Character) ::
            ({ e' with IDPrevious := natToDec site ++ natToDec (ck + 1) } : Character) ::
            []).map Character.ID) =
            (s'.ID :: m.map Character.ID ++ [P.ID]) ++
              (natToDec site ++ natToDec (ck + 1)) :: [e'.ID] := by
          simp
        rw [hnew, List.nodup_middle]
        refine List.nodup_cons.mpr ⟨?_, ?_⟩
        · intro hmem2
          simp only [List.mem_append, List.mem_cons, List.mem_singleton, List.mem_map,
            List.not_mem_nil, or_false] at hmem2
          rcases hmem2 with ((hh | hh) | hh) | hh
          · exact genID_ne_start site (ck + 1) (by rw [← hs]; exact hh)
          · obtain ⟨c, hcm, hcid⟩ := hh
            exact hcidfresh c (by rw [hmid']; simp [hcm]) hcid
          · exact hcidfresh P hPmem hh.symm
          · exact genID_ne_end site (ck + 1) (by rw [← he]; exact hh)
        · have heq2 : (s'.ID :: m.map Character.ID ++ [P.ID]) ++ [e'.ID] =
              (s' :: (m ++ [P]) ++ [e']).map Character.ID := by simp
          rw [heq2]
          exact hold
      · show (mid.length : Int) + 1 + 1 =
          ((m ++ [{ P with IDNext := natToDec site ++ natToDec (ck + 1) },
            ⟨natToDec site ++ natToDec (ck + 1), true, v, P.ID, e'.ID⟩]).length : Int) + 1
        rw [hmid']
        simp only [List.length_append, List.length_cons, List.length_nil]
        push_cast
        ring
    · rw [hmid']
      simp

theorem loadBytes_shape (site clk0 : Nat) : ∀ (bs : List Nat) (st : LoadSt)
    (mid : List Character), loadSt_shape site clk0 st mid →
    ∃ mid', loadSt_shape site clk0 (loadBytes site st bs) mid' ∧
      mid'.map Character.Value =
        mid.map Character.Value ++ bs.map (fun b => String.singleton (Char.ofNat b)) := by
  intro bs
  induction bs with
  | nil => exact fun st mid h => ⟨mid, h, by simp [loadBytes]⟩
  | cons b rest ih =>
    intro st mid h
    obtain ⟨mid1, h1, hv1⟩ := insertStep_shape site clk0 st mid
      (String.singleton (Char.ofNat b)) h
    obtain ⟨mid2, h2, hv2⟩ := ih (insertStep site st (String.singleton (Char.ofNat b))) mid1 h1
    refine ⟨mid2, ?_, ?_⟩
    · rw [show loadBytes site st (b :: rest) =
        loadBytes site (insertStep site st (String.singleton (Char.ofNat b))) rest from rfl]
      exact h2
    · rw [hv2, hv1]
      simp

theorem loadLine_shape (site clk0 : Nat) (line : List Char) (st : LoadSt)
    (mid : List Character) (h : loadSt_shape site clk0 st mid) :
    ∃ mid', loadSt_shape site clk0 (loadLine site st line) mid' ∧
      mid'.map Character.Value =
        mid.map Character.Value ++
          (lineBytes line).map (fun b => String.singleton (Char.ofNat b)) :=
  loadBytes_shape site clk0 (lineBytes line) st mid h

theorem loadLines_shape (site clk0 : Nat) : ∀ (ls : List (List Char)) (st : LoadSt)
    (mid : List Character), loadSt_shape site clk0 st mid →
    ∃ mid', loadSt_shape site clk0 (loadLines site st ls) mid' ∧
      mid'.map Character.Value = mid.map Character.Value ++ joinVals ls := by
  intro ls
  induction ls with
  | nil => exact fun st mid h => ⟨mid, h, by simp [loadLines, joinVals]⟩
  | cons l ls' ih =>
    intro st mid h
    cases ls' with
    | nil =>
      obtain ⟨mid', h', hv⟩ := loadLine_shape site clk0 l st mid h
      exact ⟨mid', h', hv⟩
    | cons l2 ls2 =>
      obtain ⟨mid1, h1, hv1⟩ := loadLine_shape site clk0 l st mid h
      obtain ⟨mid2, h2, hv2⟩ := insertStep_shape site clk0 (loadLine site st l) mid1 "\n" h1
      obtain ⟨mid3, h3, hv3⟩ := ih (insertStep site (loadLine site st l) "\n") mid2 h2
      refine ⟨mid3, ?_, ?_⟩
      · rw [show loadLines site st (l :: l2 :: ls2) =
          loadLines site (insertStep site (loadLine site st l) "\n") (l2 :: ls2) from rfl]
        exact h3
      · rw [hv3, hv2, hv1]
        simp [joinVals]

theorem doc_eq_mk {d : Document} {l : List Character} (h : d.Characters = l) : d = ⟨l⟩ := by
  cases d
  simpa using h

/-- Counterexample to C4 as stated: `Load` replays the line's bytes, not its
characters, so loading the one-character UTF-8 text of code point 233 (bytes
195 and 169) succeeds but produces the two-character content in which each byte
is re-read as a code point, not the original text. -/
theorem load_roundtrip_cex :
    (Load 1 0 "é").err = none ∧
    Content (Load 1 0 "é").doc = "Ã©" ∧
    Content (Load 1 0 "é").doc ≠ "é" :=
  ⟨by decide, by decide, by decide⟩

/-- C4 (amended): for every text of single-byte (ASCII) characters — where the
byte-by-byte replay coincides with a character-by-character one — and any site
and starting clock, replaying the text through `Load` (splitting on newlines
and inserting each byte as a local insert at increasing visible positions,
with a literal newline between lines but not after the last) succeeds and
produces a document whose `Content` is exactly the original text; `Save`
writes `Content` verbatim.  For multi-byte texts the round trip fails. -/
theorem load_roundtrip (site clk : Nat) (text : String)
    (hA : ∀ c ∈ text.data, c.toNat < 128) :
    (Load site clk text).err = none ∧ Content (Load site clk text).doc = text := by
  have h0 : loadSt_shape site clk ⟨New, 1, clk, none⟩ [] := by
    refine ⟨rfl, le_refl _, ⟨StartChar, EndChar, rfl, rfl, rfl, rfl, rfl⟩, ?_, ?_, ?_⟩
    · intro c hc
      simp at hc
    · exact (by decide : (New.Characters.map Character.ID).Nodup)
    · exact (by decide : (1 : Int) = (([] : List Character).length : Int) + 1)
  obtain ⟨mid', hsh, hvals⟩ := loadLines_shape site clk (splitNl text.data)
    ⟨New, 1, clk, none⟩ [] h0
  have herr : (Load site clk text).err = none := hsh.1
  refine ⟨herr, ?_⟩
  obtain ⟨-, -, ⟨s', e', hdoc, hs, hsv, he, hev⟩, hmem, -, -⟩ := hsh
  apply String.ext
  rw [show (Load site clk text).doc =
    (loadLines site ⟨New, 1, clk, none⟩ (splitNl text.data)).doc from rfl]
  rw [doc_eq_mk hdoc, content_data]
  have hmap : (s' :: mid' ++ [e']).map (fun c => if c.Visible then c.Value.data else []) =
      [] :: mid'.map (fun c => c.Value.data) ++ [[]] := by
    simp only [List.map_cons, List.map_append, hsv, hev]
    rw [if_neg (by simp [hsv]), if_neg (by simp [hev])]
    congr 1
    · congr 1
      refine List.map_congr_left ?_
      intro c hc
      rw [if_pos ((hmem c hc).2)]
  rw [hmap]
  simp only [List.flatten_cons, List.flatten_append, List.flatten_nil, List.nil_append]
  have hv : mid'.map (fun c => c.Value.data) = List.map String.data (joinVals (splitNl text.data)) := by
    rw [show (fun c => c.Value.data) = (String.data ∘ Character.Value) from rfl,
      ← List.map_map, hvals]
    simp
  rw [hv]
  simp only [List.append_nil]
  have hascii : ∀ l ∈ splitNl text.data, ∀ c ∈ l, c.toNat < 128 :=
    fun l hl c hc => hA c (splitNl_mem text.data l hl c hc)
  rw [joinVals_flatten (splitNl text.data) hascii, splitNl_join]

/-- The amended round trip at a concrete ASCII text with a newline. -/
theorem load_roundtrip_witness :
    (∀ c ∈ ("a\nb" : String).data, c.toNat < 128) ∧
    ((Load 1 0 "a\nb").err = none ∧ Content (Load 1 0 "a\nb").doc = "a\nb") :=
  ⟨by decide, load_roundtrip 1 0 "a\nb" (by decide)⟩

/-!  C10: `GenerateInsert` is not total on documents merely containing both
sentinels. -/

/-- Counterexample to C10 as stated: a document that contains both sentinels
(but with a visible character after the end sentinel) makes `GenerateInsert`
fail with `BoundsNotPresent` at position 2, so the error branches are
reachable. -/
theorem generateInsert_not_total_cex :
    Contains ⟨[StartChar, EndChar, ⟨"5", true, "x", "", ""⟩]⟩ "start" = true ∧
    Contains ⟨[StartChar, EndChar, ⟨"5", true, "x", "", ""⟩]⟩ "end" = true ∧
    (GenerateInsert ⟨[StartChar, EndChar, ⟨"5", true, "x", "", ""⟩]⟩ 0 0 2 "v").1.2 =
      some Err.boundsNotPresent :=
  ⟨by decide, by decide, by decide⟩

end TextEditor
